import Mathlib

/-!
# Two-tier key-value store: ingestor, cold-tier writer, offloader

A shallow embedding of the Go services of the repository:

* `cmd/ingestor/main.go`  : the `/ingest`, `/get/*key` and `/seed-old-keys` handlers,
* `cmd/offloader/main.go` : `doOffload` and `extractTS`,
* `internal/cachex/lru.go`: `NewLRU`,
* `internal/redisx/cluster.go`: `ClusterMemRatio`, `parseInfoInt`, `toInt64`,
* `internal/hdfsx/hdfs.go`: `WriteJSONL`, `keyToSafeFileName`, `OffloadDir`,
  `WriteKeyValue`, `ReadByKey`.

Conventions of the embedding.

* A Go `string` / `[]byte` is a list of bytes (`GoString`).
* The Redis cluster is its keyspace (`redisx.Keyspace`), HDFS is its set of files
  (`hdfsx.Files`); both are finite maps given as functions into `Option`.
* Every call that leaves the process (Redis, the `hdfs` command line, the local
  temporary file, the clock) takes its outcome from an explicit environment
  argument, so that the theorems quantify over every outcome.
* `encoding/json` is a parameter (`JSON`) of the handlers.
* A finite `float64` is represented by its exact rational value.
* Handlers return the response, the new state and the list of external writes they
  attempted, in order.
* Expiry of keys (the TTL passed to `SET`) is not modelled: the keyspace is the one seen
  before any TTL runs out.
* `ForEachShard` runs its callback on the shards concurrently; here the shards are taken
  one after the other.
-/

/-- Go strings and byte slices: sequences of bytes. -/
abbrev GoString := List (Fin 256)

/-- The bytes of an ASCII literal. -/
def ascii (s : String) : GoString := s.toList.map (fun c => Fin.ofNat c.toNat)

/-- Two's-complement wrap-around of an integer into the `int64` range. -/
def wrapInt64 (x : Int) : Int := (x + 9223372036854775808) % 18446744073709551616 - 9223372036854775808

/-- Values of Go's `any` as they occur in a `map[string]any`. -/
inductive GoAny where
  | float64 (f : ℚ)
  | int64 (n : Int)
  | int (n : Int)
  | string (s : GoString)
  | bool (b : Bool)
  | other (tag : Nat)
  deriving DecidableEq

/-- A Go `map[string]any`, as an association list with one entry per key. -/
abbrev Payload := List (GoString × GoAny)

/-- Map assignment `m[k] = v`. -/
def Payload.set (m : Payload) (k : GoString) (v : GoAny) : Payload :=
  (k, v) :: m.filter (fun e => e.1 ≠ k)

/-- Map lookup `m[k]` with the comma-ok result. -/
def Payload.get (m : Payload) (k : GoString) : Option GoAny := m.lookup k

namespace strconv

/-- The value of a non-empty string of decimal digits (`strconv.ParseUint` in base 10,
before its range check). -/
def parseDigits : GoString → Option Nat
  | [] => none
  | ds => ds.foldl (fun acc c =>
      match acc with
      | none => none
      | some n => if 48 ≤ c.val ∧ c.val ≤ 57 then some (n * 10 + (c.val - 48)) else none) (some 0)

/-- The function `strconv.ParseInt(s, 10, 64)`: `none` stands for a non-nil error. -/
def ParseInt (s : GoString) : Option Int :=
  match s with
  | [] => none
  | c :: rest =>
    let neg : Bool := c = 45
    let ds : GoString := if c = 43 ∨ c = 45 then rest else s
    match parseDigits ds with
    | none => none
    | some un =>
      if !neg && decide (9223372036854775808 ≤ un) then none
      else if neg && decide (9223372036854775808 < un) then none
      else some (if neg then -(un : Int) else (un : Int))

/-- The function `strconv.Atoi` on a 64-bit platform. -/
def Atoi (s : GoString) : Option Int := ParseInt s

/-- The function `strconv.Itoa` (also the verb `%d` of `fmt.Sprintf`). -/
def Itoa (i : Int) : GoString := ascii (toString i)

end strconv

namespace strings

/-- The function `strings.TrimRight(s, cutset)` for a cutset of one ASCII byte. -/
def TrimRight (s : GoString) (c : Fin 256) : GoString :=
  (s.reverse.dropWhile (fun b => b = c)).reverse

/-- The function `strings.TrimSuffix(s, suffix)` for a suffix of one byte. -/
def TrimSuffix (s : GoString) (c : Fin 256) : GoString :=
  if s.getLast? = some c then s.dropLast else s

/-- The function `strings.Split(s, sep)` for a separator of one byte. -/
def Split (s : GoString) (sep : Fin 256) : List GoString :=
  match s with
  | [] => [[]]
  | c :: rest =>
    if c = sep then [] :: Split rest sep
    else
      match Split rest sep with
      | [] => [[c]]
      | l :: ls => (c :: l) :: ls

/-- The function `strings.HasPrefix`. -/
def HasPrefix (s pre : GoString) : Bool := s.take pre.length == pre

/-- The function `strings.TrimPrefix`. -/
def TrimPrefix (s pre : GoString) : GoString := if HasPrefix s pre then s.drop pre.length else s

/-- White space in the ASCII range: tab, line feed, vertical tab, form feed, carriage
return, space. -/
def isSpace (c : Fin 256) : Bool :=
  decide (c.val = 9 ∨ c.val = 10 ∨ c.val = 11 ∨ c.val = 12 ∨ c.val = 13 ∨ c.val = 32)

/-- The function `strings.TrimSpace` on ASCII text. -/
def TrimSpace (s : GoString) : GoString :=
  ((s.dropWhile isSpace).reverse.dropWhile isSpace).reverse

end strings

namespace base64

/-- The alphabet of `base64.URLEncoding`: `A-Z`, `a-z`, `0-9`, `-`, `_`. -/
def encodeURL (i : Nat) : Fin 256 :=
  if i < 26 then Fin.ofNat (65 + i)
  else if i < 52 then Fin.ofNat (97 + (i - 26))
  else if i < 62 then Fin.ofNat (48 + (i - 52))
  else if i = 62 then 45
  else 95

/-- The padding character `=`. -/
def StdPadding : Fin 256 := 61

/-- The function `base64.URLEncoding.EncodeToString`. -/
def EncodeToString : GoString → GoString
  | a :: b :: c :: rest =>
      encodeURL (a.val / 4) :: encodeURL ((a.val % 4) * 16 + b.val / 16) ::
      encodeURL ((b.val % 16) * 4 + c.val / 64) :: encodeURL (c.val % 64) :: EncodeToString rest
  | [a, b] =>
      [encodeURL (a.val / 4), encodeURL ((a.val % 4) * 16 + b.val / 16),
       encodeURL ((b.val % 16) * 4), StdPadding]
  | [a] => [encodeURL (a.val / 4), encodeURL ((a.val % 4) * 16), StdPadding, StdPadding]
  | [] => []

/-- The function `base64.RawURLEncoding.EncodeToString`: the encoding without padding. -/
def RawEncodeToString : GoString → GoString
  | a :: b :: c :: rest =>
      encodeURL (a.val / 4) :: encodeURL ((a.val % 4) * 16 + b.val / 16) ::
      encodeURL ((b.val % 16) * 4 + c.val / 64) :: encodeURL (c.val % 64) ::
      RawEncodeToString rest
  | [a, b] =>
      [encodeURL (a.val / 4), encodeURL ((a.val % 4) * 16 + b.val / 16),
       encodeURL ((b.val % 16) * 4)]
  | [a] => [encodeURL (a.val / 4), encodeURL ((a.val % 4) * 16)]
  | [] => []

/-- The decoding table of `base64.URLEncoding`: the index of a character of the alphabet,
`none` for any other byte. -/
def decodeURL (c : Fin 256) : Option Nat :=
  if 65 ≤ c.val ∧ c.val ≤ 90 then some (c.val - 65)
  else if 97 ≤ c.val ∧ c.val ≤ 122 then some (c.val - 97 + 26)
  else if 48 ≤ c.val ∧ c.val ≤ 57 then some (c.val - 48 + 52)
  else if c.val = 45 then some 62
  else if c.val = 95 then some 63
  else none

/-- The byte with the given value. -/
def byte (n : Nat) : Fin 256 := ⟨n % 256, Nat.mod_lt n (by decide)⟩

/-- The function `base64.URLEncoding.DecodeString` on input without line breaks: `none`
stands for a non-nil error. -/
def DecodeString : GoString → Option GoString
  | [] => some []
  | c1 :: c2 :: c3 :: c4 :: rest =>
    match decodeURL c1, decodeURL c2 with
    | some s1, some s2 =>
      if c3 = StdPadding ∧ c4 = StdPadding ∧ rest = [] then some [byte (s1 * 4 + s2 / 16)]
      else
        match decodeURL c3 with
        | some s3 =>
          if c4 = StdPadding ∧ rest = [] then
            some [byte (s1 * 4 + s2 / 16), byte ((s2 % 16) * 16 + s3 / 4)]
          else
            match decodeURL c4, DecodeString rest with
            | some s4, some more =>
              some (byte (s1 * 4 + s2 / 16) :: byte ((s2 % 16) * 16 + s3 / 4) ::
                byte ((s3 % 4) * 64 + s4) :: more)
            | _, _ => none
        | none => none
    | _, _ => none
  | _ => none

/-- A name padded with `=` to a multiple of four characters. -/
def repad (s : GoString) : GoString :=
  s ++ List.replicate ((4 - s.length % 4) % 4) StdPadding

end base64

/-- The package `encoding/json`, a parameter of the services. An error carries its
message. -/
structure JSON (Event : Type) where
  /-- The function `json.Marshal` on a `map[string]any`. -/
  Marshal : Payload → Except String GoString
  /-- One `Encoder.Encode` of an event: its JSON text and a newline. -/
  Encode : Event → Except String GoString
  /-- The function `json.Unmarshal` into a `map[string]any`; `none` is an error. -/
  Unmarshal : GoString → Option Payload

namespace lru

/-- The cache `lru.Cache[string, string]` of hashicorp/golang-lru: at most `size`
entries, most recently used first. -/
structure Cache where
  size : Nat
  items : List (GoString × GoString)
  deriving DecidableEq

/-- The constructor `lru.New`: fails on a size that is not positive. -/
def New (size : Int) : Option Cache :=
  if size ≤ 0 then none else some { size := size.toNat, items := [] }

/-- The method `Get`: the value and the cache with the entry made most recent. -/
def Cache.Get (c : Cache) (k : GoString) : Option GoString × Cache :=
  match c.items.lookup k with
  | some v => (some v, { c with items := (k, v) :: c.items.filter (fun e => e.1 ≠ k) })
  | none => (none, c)

/-- The method `Add`: updates or inserts the entry as most recent, and evicts the oldest
entry when the size is exceeded. -/
def Cache.Add (c : Cache) (k v : GoString) : Cache :=
  match c.items.lookup k with
  | some _ => { c with items := (k, v) :: c.items.filter (fun e => e.1 ≠ k) }
  | none =>
    let items := (k, v) :: c.items
    { c with items := if c.size < items.length then items.dropLast else items }

end lru

namespace cachex

/-- The struct `Cache`. A disabled cache has a nil `LRU` in Go, which is never
dereferenced; here it is an empty cache of size zero. -/
structure Cache where
  Enabled : Bool
  LRU : lru.Cache
  deriving DecidableEq

/-- The constructor `NewLRU`; the arguments are the values of the environment variables
`LOCAL_CACHE_HOTKEYS` and `LOCAL_CACHE_SIZE` (empty when unset). -/
def NewLRU (hotkeys sizeVar : GoString) : Cache :=
  let enabled : Bool := hotkeys ≠ ascii "0"
  if !enabled then { Enabled := false, LRU := { size := 0, items := [] } }
  else
    let size : Int :=
      if sizeVar ≠ [] then
        match strconv.Atoi sizeVar with
        | some v => if 0 < v then v else 1024
        | none => 1024
      else 1024
    match lru.New size with
    | none => { Enabled := false, LRU := { size := 0, items := [] } }
    | some c => { Enabled := true, LRU := c }

end cachex

namespace redisx

/-- The keyspace of the Redis cluster. -/
abbrev Keyspace := GoString → Option GoString

/-- The effect of a successful `SET key value`. -/
def Keyspace.set (ks : Keyspace) (key value : GoString) : Keyspace :=
  fun k => if k = key then some value else ks k

/-- The effect of a successful `DEL key`. -/
def Keyspace.del (ks : Keyspace) (key : GoString) : Keyspace :=
  fun k => if k = key then none else ks k

/-- The call `Get(ctx, key).Result()`: an error when the call fails (`err`) or when the
key is absent (`redis.Nil`). -/
def Get (ks : Keyspace) (key : GoString) (err : Option String) : Except String GoString :=
  match err with
  | some e => .error e
  | none =>
    match ks key with
    | some v => .ok v
    | none => .error "redis: nil"

/-- The loop of `toInt64`: reads decimal digits up to the first other byte; the
accumulator is an `int64` and wraps around. -/
def toInt64Loop (n : Int) : GoString → Int
  | [] => n
  | c :: rest =>
    if c.val < 48 ∨ 57 < c.val then n
    else toInt64Loop (wrapInt64 (n * 10 + ((c.val : Int) - 48))) rest

/-- The function `toInt64`; its error is always nil. -/
def toInt64 (s : GoString) : Int := toInt64Loop 0 s

/-- The loop of `parseInfoInt` over the lines. -/
def parseInfoLines (pre : GoString) : List GoString → Int
  | [] => 0
  | ln :: rest =>
    if strings.HasPrefix ln pre then toInt64 (strings.TrimSpace (strings.TrimPrefix ln pre))
    else parseInfoLines pre rest

/-- The function `parseInfoInt`. -/
def parseInfoInt (info key : GoString) : Int :=
  parseInfoLines (key ++ ascii ":") (strings.Split info 10)

/-- The totals `usedTotal` and `maxTotal` after the callback of `ForEachShard` ran on the
shards: `none` is a shard whose `INFO memory` failed, which adds nothing. -/
def memTotals (infos : List (Option GoString)) : Int × Int :=
  infos.foldl (fun t r =>
    match r with
    | none => t
    | some s =>
      (wrapInt64 (t.1 + parseInfoInt s (ascii "used_memory")),
       wrapInt64 (t.2 + parseInfoInt s (ascii "maxmemory")))) (0, 0)

/-- The function `ClusterMemRatio`: the ratio and whether the error is non-nil. `stateErr`
tells whether `ForEachShard` fails before visiting any shard; `infos` are the replies of
the shards to `INFO memory`. The quotient of the two `float64` conversions is taken
exactly. -/
def ClusterMemRatio (stateErr : Bool) (infos : List (Option GoString)) : ℚ × Bool :=
  let t : Int × Int := if stateErr then (0, 0) else memTotals infos
  if t.2 ≤ 0 then (0, stateErr) else ((t.1 : ℚ) / (t.2 : ℚ), stateErr)

end redisx

namespace hdfsx

/-- The files of HDFS: path to content. -/
abbrev Files := GoString → Option GoString

/-- The effect of a successful `hdfs dfs -put -f` to `path`. -/
def Files.put (fs : Files) (path content : GoString) : Files :=
  fun p => if p = path then some content else fs p

/-- The struct `Writer`. -/
structure Writer where
  Path : GoString
  deriving DecidableEq

/-- The constructor `NewWriter`; the argument is the value of `HDFS_PATH`. -/
def NewWriter (hdfsPath : GoString) : Writer :=
  if hdfsPath = [] then { Path := ascii "/events_overflow" } else { Path := hdfsPath }

/-- Outcomes of the external steps of one `WriteJSONL` call. -/
structure JSONLEnv where
  /-- The reading `time.Now().UnixMilli()`. -/
  nowMilli : Int
  /-- The error of `os.Create`, if any. -/
  createErr : Option String
  /-- The error of the `hdfs dfs -put` command, if any. -/
  putErr : Option String

/-- Encodes the events one per line, stopping at the first error. -/
def encodeAll {Event : Type} (J : JSON Event) : List Event → Except String GoString
  | [] => .ok []
  | ev :: rest =>
    match J.Encode ev with
    | .error e => .error e
    | .ok line =>
      match encodeAll J rest with
      | .error e => .error e
      | .ok more => .ok (line ++ more)

/-- The HDFS path a bulk-overflow file is put to: the directory `Path/` and the base name
of the temporary file `/tmp/overflow_<ms>.jsonl`. -/
def overflowPath (w : Writer) (nowMilli : Int) : GoString :=
  w.Path ++ ascii "/" ++ ascii "overflow_" ++ strconv.Itoa nowMilli ++ ascii ".jsonl"

/-- The method `WriteJSONL`: the new files and the returned error. -/
def WriteJSONL {Event : Type} (w : Writer) (J : JSON Event) (fs : Files) (events : List Event)
    (env : JSONLEnv) : Files × Option String :=
  match env.createErr with
  | some e => (fs, some e)
  | none =>
    match encodeAll J events with
    | .error e => (fs, some e)
    | .ok content =>
      match env.putErr with
      | some e => (fs, some e)
      | none => (fs.put (overflowPath w env.nowMilli) content, none)

/-- The function `keyToSafeFileName`. -/
def keyToSafeFileName (key : GoString) : GoString :=
  strings.TrimRight (base64.EncodeToString key) base64.StdPadding

/-- The method `OffloadDir`. -/
def OffloadDir (w : Writer) : GoString :=
  strings.TrimSuffix w.Path 47 ++ ascii "/offloaded"

/-- The path `<OffloadDir>/<safe>.json` of the object of a key. -/
def keyPath (w : Writer) (key : GoString) : GoString :=
  OffloadDir w ++ ascii "/" ++ keyToSafeFileName key ++ ascii ".json"

/-- The method `WriteKeyValue`: the new files and whether an error is returned.
`writeFileErr` is the failure of `os.WriteFile` on the temporary file, `putErr` the
failure of the `hdfs dfs -put -f` command. -/
def WriteKeyValue (w : Writer) (fs : Files) (key value : GoString)
    (writeFileErr putErr : Bool) : Files × Bool :=
  if writeFileErr then (fs, true)
  else if putErr then (fs, true)
  else (fs.put (keyPath w key) value, false)

/-- The method `ReadByKey`: the output of `hdfs dfs -cat`, or `none` for an error (the
file is absent, or the command fails: `catErr`). -/
def ReadByKey (w : Writer) (fs : Files) (key : GoString) (catErr : Bool) : Option GoString :=
  if catErr then none else fs (keyPath w key)

end hdfsx

namespace ingestor

/-- The struct `Event`; a nil `Value` map is `none`. -/
structure Event where
  Key : GoString
  Value : Option Payload
  TTLSeconds : Int
  CacheHint : GoString
  deriving DecidableEq

/-- The state the handlers of the ingestor work on: the local cache of the process, the
Redis keyspace and the HDFS files. -/
structure State where
  cache : cachex.Cache
  redis : redisx.Keyspace
  hdfs : hdfsx.Files

/-- The external writes a handler attempts. -/
inductive Call where
  /-- The call `cache.LRU.Add(key, value)`. -/
  | cacheAdd (key value : GoString)
  /-- The call `hdfs.WriteJSONL(events)`. -/
  | writeJSONL (events : List Event)
  /-- The call `r.Set(ctx, key, value, ttl)`, the duration in nanoseconds. -/
  | redisSet (key value : GoString) (ttl : Int)
  deriving DecidableEq

/-- The JSON body of a response of `/ingest`; an absent field is `none`. -/
structure IngestResponse where
  status : Nat
  ok : Bool
  stored : Option String
  error : Option String
  mem_ratio : Option ℚ
  deriving DecidableEq

/-- Outcomes of the external calls of one `/ingest` request. -/
structure IngestEnv where
  /-- The ratio returned by `redisx.ClusterMemRatio`. -/
  ratio : ℚ
  /-- The reading `time.Now().Unix()`. -/
  now : Int
  /-- The error of `r.Set`, if any. -/
  setErr : Option String
  /-- The outcomes inside `hdfs.WriteJSONL`. -/
  jsonl : hdfsx.JSONLEnv

/-- The response to a request that fails validation. -/
def invalidEvent : IngestResponse :=
  { status := 400, ok := false, stored := none, error := some "invalid event", mem_ratio := none }

/-- The handler of `POST /ingest`. `bound` is the event `c.ShouldBindJSON` produced, or
`none` when binding failed; `soft` is the threshold `REDIS_MAXMEM_SOFT`. -/
def ingestHandler (J : JSON Event) (w : hdfsx.Writer) (soft : ℚ) (st : State) (env : IngestEnv)
    (bound : Option Event) : IngestResponse × State × List Call :=
  match bound with
  | none => (invalidEvent, st, [])
  | some ev0 =>
    match ev0.Value with
    | none => (invalidEvent, st, [])
    | some value =>
      if ev0.Key = [] then (invalidEvent, st, [])
      else
        let ev : Event := if ev0.TTLSeconds ≤ 0 then { ev0 with TTLSeconds := 3600 } else ev0
        let hot : Bool := st.cache.Enabled && decide (ev.CacheHint = ascii "hot_read")
        let cache : cachex.Cache :=
          if hot then { st.cache with LRU := st.cache.LRU.Add ev.Key (ascii "cached") } else st.cache
        let calls : List Call := if hot then [Call.cacheAdd ev.Key (ascii "cached")] else []
        if soft ≤ env.ratio then
          let out := hdfsx.WriteJSONL w J st.hdfs [ev] env.jsonl
          ({ status := 200, ok := true, stored := some "hdfs", error := none,
             mem_ratio := some env.ratio },
           { cache := cache, redis := st.redis, hdfs := out.1 },
           calls ++ [Call.writeJSONL [ev]])
        else
          let payload : Payload := value.set (ascii "_ts") (GoAny.int64 env.now)
          let stamped : Event := { ev with Value := some payload }
          match J.Marshal payload with
          | .error e =>
            let out := hdfsx.WriteJSONL w J st.hdfs [stamped] env.jsonl
            ({ status := 200, ok := false, stored := some "hdfs", error := some e,
               mem_ratio := some env.ratio },
             { cache := cache, redis := st.redis, hdfs := out.1 },
             calls ++ [Call.writeJSONL [stamped]])
          | .ok b =>
            let ttl : Int := wrapInt64 (ev.TTLSeconds * 1000000000)
            match env.setErr with
            | some e =>
              let out := hdfsx.WriteJSONL w J st.hdfs [stamped] env.jsonl
              ({ status := 200, ok := true, stored := some "hdfs", error := some e,
                 mem_ratio := some env.ratio },
               { cache := cache, redis := st.redis, hdfs := out.1 },
               calls ++ [Call.redisSet ev.Key b ttl, Call.writeJSONL [stamped]])
            | none =>
              ({ status := 200, ok := true, stored := some "redis", error := none,
                 mem_ratio := some env.ratio },
               { cache := cache, redis := st.redis.set ev.Key b, hdfs := st.hdfs },
               calls ++ [Call.redisSet ev.Key b ttl])

/-- The JSON body of a response of `/get/*key`; an absent field is `none`. -/
structure GetResponse where
  status : Nat
  ok : Bool
  source : Option String
  value : Option GoString
  error : Option String
  deriving DecidableEq

/-- Outcomes of the external calls of one `/get` request. -/
structure GetEnv where
  /-- The error of the Redis `GET` other than an absent key, if any. -/
  getErr : Option String
  /-- Whether the `hdfs dfs -cat` command fails for another reason than an absent file. -/
  catErr : Bool

/-- The key a `/get/*key` request asks for: the wildcard parameter without its leading
slash. -/
def requestKey (param : GoString) : GoString :=
  match param with
  | c :: rest => if c = 47 then rest else param
  | [] => param

/-- The key of the local cache under which the value of `key` is cached. -/
def valKey (key : GoString) : GoString := ascii "VAL:" ++ key

/-- The handler of `GET /get/*key`; `param` is `c.Param("key")`. -/
def getHandler (w : hdfsx.Writer) (st : State) (env : GetEnv) (param : GoString) :
    GetResponse × State × List Call :=
  let key := requestKey param
  if key = [] then
    ({ status := 400, ok := false, source := none, value := none, error := some "missing key" },
     st, [])
  else
    let hit : Option GoString × lru.Cache :=
      if st.cache.Enabled then st.cache.LRU.Get (valKey key) else (none, st.cache.LRU)
    match hit.1 with
    | some v =>
      ({ status := 200, ok := true, source := some "local_cache", value := some v, error := none },
       { st with cache := { st.cache with LRU := hit.2 } }, [])
    | none =>
      match redisx.Get st.redis key env.getErr with
      | .error e =>
        match hdfsx.ReadByKey w st.hdfs key env.catErr with
        | some buf =>
          ({ status := 200, ok := true, source := some "hdfs", value := some buf, error := none },
           st, [])
        | none =>
          ({ status := 404, ok := false, source := none, value := none, error := some e }, st, [])
      | .ok val =>
        if st.cache.Enabled then
          ({ status := 200, ok := true, source := some "redis", value := some val, error := none },
           { st with cache := { st.cache with LRU := st.cache.LRU.Add (valKey key) val } },
           [Call.cacheAdd (valKey key) val])
        else
          ({ status := 200, ok := true, source := some "redis", value := some val, error := none },
           st, [])

/-- The record the seed handler writes for index `i`. -/
def seedValue (ts : Int) (i : Nat) : Payload :=
  [(ascii "_ts", GoAny.int64 ts), (ascii "seed", GoAny.bool true), (ascii "i", GoAny.int i)]

/-- The key the seed handler writes for index `i`. -/
def seedKey (i : Nat) : GoString := ascii "seed:old:" ++ strconv.Itoa i

/-- The number of keys to seed: the query parameter `count` when it is a number in
`1..500`, otherwise 20. -/
def seedCount (query : GoString) : Nat :=
  if query ≠ [] then
    match strconv.Atoi query with
    | some n => if 0 < n ∧ n ≤ 500 then n.toNat else 20
    | none => 20
  else 20

/-- The loop of the seed handler from index `i`, `n` keys to go. `setFails i` tells
whether the `Set` of index `i` fails; the error of `json.Marshal` is dropped, leaving nil
bytes. -/
def seedLoop {E : Type} (J : JSON E) (ts : Int) (setFails : Nat → Bool) :
    Nat → Nat → redisx.Keyspace → redisx.Keyspace
  | 0, _, ks => ks
  | n + 1, i, ks =>
    let b : GoString := match J.Marshal (seedValue ts i) with
      | .ok b => b
      | .error _ => []
    seedLoop J ts setFails n (i + 1) (if setFails i then ks else ks.set (seedKey i) b)

/-- The handler `seedOldKeysHandler`: the number of seeded keys it reports and the new
keyspace; `now` is `time.Now().Unix()` and `query` the parameter `count`. -/
def seedOldKeysHandler {E : Type} (J : JSON E) (ks : redisx.Keyspace) (now : Int)
    (setFails : Nat → Bool) (query : GoString) : Nat × redisx.Keyspace :=
  let count := seedCount query
  (count, seedLoop J (now - 120) setFails count 0 ks)

end ingestor

namespace offloader

/-- The conversion `int64(f)` of a finite `float64`: truncation toward zero; a value
outside the `int64` range gives the minimum `int64` (the amd64 result; Go leaves it to
the implementation). -/
def int64OfFloat64 (f : ℚ) : Int :=
  let t : Int := if 0 ≤ f then ⌊f⌋ else ⌈f⌉
  if -9223372036854775808 ≤ t ∧ t < 9223372036854775808 then t else -9223372036854775808

/-- The function `extractTS`. -/
def extractTS {E : Type} (J : JSON E) (val : GoString) : Int × Bool :=
  match J.Unmarshal val with
  | none => (0, false)
  | some payload =>
    match payload.get (ascii "_ts") with
    | none => (0, false)
    | some raw =>
      match raw with
      | GoAny.float64 ts => (int64OfFloat64 ts, true)
      | GoAny.int64 ts => (ts, true)
      | GoAny.int ts => (ts, true)
      | GoAny.string ts =>
        match strconv.ParseInt ts with
        | some v => (v, true)
        | none => (0, false)
      | _ => (0, false)

/-- The counters of one run. -/
structure Counters where
  scanned : Nat
  old : Nat
  moved : Nat
  writeFail : Nat
  parseFail : Nat
  deriving DecidableEq

/-- The writes and deletes a run attempts, with their outcome (`ok` when the call
returned no error). -/
inductive Op where
  /-- The call `hdfs.WriteKeyValue(key, val)`. -/
  | write (key value : GoString) (ok : Bool)
  /-- The call `shard.Del(ctx, key)`. -/
  | del (key : GoString) (ok : Bool)
  deriving DecidableEq

/-- One key returned by `SCAN`, with the outcomes of the calls made for it. -/
structure Visit where
  key : GoString
  /-- The error of `shard.Get` other than an absent key, if any. -/
  getErr : Option String
  /-- Whether `os.WriteFile` fails inside `WriteKeyValue`. -/
  writeFileErr : Bool
  /-- Whether the `hdfs dfs -put -f` command fails inside `WriteKeyValue`. -/
  putErr : Bool
  /-- Whether `shard.Del` returns an error. -/
  delErr : Bool
  deriving DecidableEq

/-- The `SCAN` iteration of one shard: the pages of keys returned until the cursor came
back to zero, or, when `scanErr`, until a `Scan` call failed. -/
structure ShardScan where
  pages : List (List Visit)
  scanErr : Bool
  deriving DecidableEq

/-- The state of a run in progress. -/
structure RunState where
  redis : redisx.Keyspace
  hdfs : hdfsx.Files
  n : Counters
  ops : List Op

/-- The value of the variable `shouldMove` of the loop body. -/
def shouldMove (forceByMem hasTS : Bool) (ts cutoff forceCutoff : Int) : Bool :=
  if hasTS && decide (ts < cutoff) then true
  else if forceByMem && hasTS && decide (ts < forceCutoff) then true
  else if forceByMem && !hasTS then true
  else false

/-- The body of the loop over the keys of a page. -/
def visitKey {E : Type} (J : JSON E) (w : hdfsx.Writer) (forceByMem : Bool)
    (cutoff forceCutoff : Int) (s : RunState) (v : Visit) : RunState :=
  let s1 : RunState := { s with n := { s.n with scanned := s.n.scanned + 1 } }
  match redisx.Get s1.redis v.key v.getErr with
  | .error _ => s1
  | .ok val =>
    let r := extractTS J val
    let ts := r.1
    let hasTS := r.2
    let s2 : RunState :=
      if !hasTS then { s1 with n := { s1.n with parseFail := s1.n.parseFail + 1 } } else s1
    let s3 : RunState :=
      if hasTS && decide (ts < cutoff) then { s2 with n := { s2.n with old := s2.n.old + 1 } }
      else s2
    if shouldMove forceByMem hasTS ts cutoff forceCutoff then
      let out := hdfsx.WriteKeyValue w s3.hdfs v.key val v.writeFileErr v.putErr
      if out.2 then
        { s3 with n := { s3.n with writeFail := s3.n.writeFail + 1 },
                  ops := s3.ops ++ [Op.write v.key val false] }
      else if v.delErr then
        { s3 with hdfs := out.1, ops := s3.ops ++ [Op.write v.key val true, Op.del v.key false] }
      else
        { redis := s3.redis.del v.key, hdfs := out.1,
          n := { s3.n with moved := s3.n.moved + 1 },
          ops := s3.ops ++ [Op.write v.key val true, Op.del v.key true] }
    else s3

/-- The callback of `ForEachShard` on one shard: the cursor loop over the pages. -/
def scanShard {E : Type} (J : JSON E) (w : hdfsx.Writer) (forceByMem : Bool)
    (cutoff forceCutoff : Int) (s : RunState) (sh : ShardScan) : RunState :=
  sh.pages.foldl (fun s page => page.foldl (visitKey J w forceByMem cutoff forceCutoff) s) s

/-- Outcomes of the external calls of one run. -/
structure RunEnv where
  /-- The ratio and error returned by `redisx.ClusterMemRatio`. -/
  memRatio : ℚ
  memErr : Bool
  /-- The two readings of `time.Now()`, in nanoseconds since the Unix epoch. -/
  now1 : Int
  now2 : Int
  /-- Whether `ForEachShard` fails before visiting any shard. -/
  stateErr : Bool
  /-- The `SCAN` iterations of the shards; the shards are taken one after the other. -/
  shards : List ShardScan

/-- The Unix second of `time.Now().Add(-time.Duration(sec) * time.Second)` for a clock
reading `now` in nanoseconds. -/
def cutoffOf (now sec : Int) : Int :=
  (now + wrapInt64 (-sec * 1000000000)) / 1000000000

/-- What a run leaves behind. -/
structure RunResult where
  redis : redisx.Keyspace
  hdfs : hdfsx.Files
  n : Counters
  ops : List Op
  forceByMem : Bool
  /-- Whether `ForEachShard` returned an error (the run logs it and returns). -/
  scanErr : Bool
  /-- The counters of the line `offload run: ...`, when it is logged. -/
  report : Option Counters

/-- The function `doOffload`. -/
def doOffload {E : Type} (J : JSON E) (w : hdfsx.Writer) (redis : redisx.Keyspace)
    (hdfs : hdfsx.Files) (env : RunEnv) (offloadAfterSec : Int) (forceMemRatio : ℚ)
    (forceMinAgeSec : Int) : RunResult :=
  let forceByMem : Bool := !env.memErr && decide (forceMemRatio ≤ env.memRatio)
  let cutoff := cutoffOf env.now1 offloadAfterSec
  let forceCutoff := cutoffOf env.now2 forceMinAgeSec
  let s0 : RunState := { redis := redis, hdfs := hdfs, n := ⟨0, 0, 0, 0, 0⟩, ops := [] }
  let s : RunState :=
    if env.stateErr then s0
    else env.shards.foldl (scanShard J w forceByMem cutoff forceCutoff) s0
  let err : Bool := env.stateErr || env.shards.any (fun sh => sh.scanErr)
  let logged : Bool := !err && (decide (0 < s.n.scanned) || decide (0 < s.n.old) ||
    decide (0 < s.n.moved) || decide (0 < s.n.writeFail) || decide (0 < s.n.parseFail) ||
    forceByMem)
  { redis := s.redis, hdfs := s.hdfs, n := s.n, ops := s.ops, forceByMem := forceByMem,
    scanErr := err, report := if logged then some s.n else none }

end offloader

/-! ## Notions used to state what a run does -/

namespace offloader

/-- The keys a run visits, in order: none when `ForEachShard` fails at once, otherwise the
pages of the shards one after the other. -/
def RunEnv.visits (env : RunEnv) : List Visit :=
  if env.stateErr then [] else (env.shards.map (fun sh => sh.pages.flatten)).flatten

/-- The state after the loop body ran on a list of visits, in order. -/
def sweep {E : Type} (J : JSON E) (w : hdfsx.Writer) (forceByMem : Bool)
    (cutoff forceCutoff : Int) (s : RunState) (vs : List Visit) : RunState :=
  vs.foldl (visitKey J w forceByMem cutoff forceCutoff) s

/-- The distinct keys of a list, in the order of their first occurrence. -/
def firsts : List GoString → List GoString
  | [] => []
  | k :: ks => k :: (firsts ks).filter (fun k' => decide (k' ≠ k))

/-- Whether the keyspace holds for `key` a value whose timestamp is before `cutoff`. -/
def isOld {E : Type} (J : JSON E) (cutoff : Int) (ks : redisx.Keyspace) (key : GoString) : Bool :=
  match ks key with
  | some val => (extractTS J val).2 && decide ((extractTS J val).1 < cutoff)
  | none => false

/-- The files after the successful writes of a list of operations, in order. -/
def replayWrites (w : hdfsx.Writer) : List Op → hdfsx.Files → hdfsx.Files
  | [], fs => fs
  | Op.write k v true :: rest, fs => replayWrites w rest (fs.put (hdfsx.keyPath w k) v)
  | _ :: rest, fs => replayWrites w rest fs

/-- Whether an operation is a write that failed. -/
def Op.isFailedWrite : Op → Bool
  | Op.write _ _ false => true
  | _ => false

/-- Whether an operation is a delete that succeeded. -/
def Op.isDelete : Op → Bool
  | Op.del _ true => true
  | _ => false

/-- Whether an operation is a write attempt for `key`. -/
def Op.isWriteOf (key : GoString) : Op → Bool
  | Op.write k _ _ => decide (k = key)
  | _ => false

/-- What holds of a run in progress that started from the keyspace `redis0` and the files
`hdfs0`. -/
structure RunInv (w : hdfsx.Writer) (redis0 : redisx.Keyspace) (hdfs0 : hdfsx.Files)
    (s : RunState) : Prop where
  /-- A key is gone exactly when the run deleted it; no other key changed. -/
  redis_eq : ∀ k, s.redis k = if Op.del k true ∈ s.ops then none else redis0 k
  /-- The files are the initial ones after the successful writes. -/
  hdfs_eq : s.hdfs = replayWrites w s.ops hdfs0
  /-- Every write carries the value the keyspace held for the key. -/
  write_val : ∀ k v ok, Op.write k v ok ∈ s.ops → redis0 k = some v
  /-- Every delete comes right after a successful write of the same key. -/
  del_after_write : ∀ pre post k ok, s.ops = pre ++ Op.del k ok :: post →
    ∃ pre' v, pre = pre' ++ [Op.write k v true]
  /-- The failure counter counts the failed writes. -/
  writeFail_eq : s.n.writeFail = s.ops.countP Op.isFailedWrite
  /-- The move counter counts the successful deletes. -/
  moved_eq : s.n.moved = s.ops.countP Op.isDelete

end offloader

/-! ## A reference codec

`json.flat` renders and reads compact JSON objects whose values are integers, booleans
and plain strings. It is the instance of `JSON` on which the services are run on
explicit inputs; the general theorems hold for every codec. -/

namespace json

/-- Whether a byte may appear unescaped inside a JSON string. -/
def plain (c : Fin 256) : Bool := decide (32 ≤ c.val ∧ c.val < 127 ∧ c.val ≠ 34 ∧ c.val ≠ 92)

/-- A string literal between double quotes; strings that need escaping are not supported. -/
def renderString (s : GoString) : Except String GoString :=
  if s.all plain then .ok (ascii "\"" ++ s ++ ascii "\"")
  else .error "json: unsupported string"

/-- The JSON text of a value. -/
def renderAny : GoAny → Except String GoString
  | GoAny.float64 f =>
    if f.den = 1 then .ok (strconv.Itoa f.num) else .error "json: unsupported number"
  | GoAny.int64 n => .ok (strconv.Itoa n)
  | GoAny.int n => .ok (strconv.Itoa n)
  | GoAny.string s => renderString s
  | GoAny.bool true => .ok (ascii "true")
  | GoAny.bool false => .ok (ascii "false")
  | GoAny.other _ => .error "json: unsupported type"

/-- The members `"k":v` of an object, separated by commas. -/
def renderMembers : List (GoString × GoAny) → Except String GoString
  | [] => .ok []
  | (k, v) :: rest =>
    match renderString k, renderAny v, renderMembers rest with
    | .ok ks, .ok vs, .ok more =>
      .ok (ks ++ ascii ":" ++ vs ++ (if rest = [] then [] else ascii ",") ++ more)
    | .error e, _, _ => .error e
    | _, .error e, _ => .error e
    | _, _, .error e => .error e

/-- The function `json.Marshal` on a flat map: an object with its keys in byte order. -/
def Marshal (m : Payload) : Except String GoString :=
  match renderMembers (m.insertionSort (fun a b => a.1 ≤ b.1)) with
  | .ok body => .ok ([123] ++ body ++ [125])
  | .error e => .error e

/-- One line of `Encoder.Encode` for an event. -/
def Encode (ev : ingestor.Event) : Except String GoString :=
  let value : Except String GoString :=
    match ev.Value with
    | none => .ok (ascii "null")
    | some m => Marshal m
  match renderString ev.Key, value, renderString ev.CacheHint with
  | .ok k, .ok v, .ok h =>
    .ok ([123] ++ ascii "\"key\":" ++ k ++ ascii ",\"value\":" ++ v ++ ascii ",\"ttl_sec\":" ++
      strconv.Itoa ev.TTLSeconds ++ ascii ",\"cache_hint\":" ++ h ++ [125, 10])
  | .error e, _, _ => .error e
  | _, .error e, _ => .error e
  | _, _, .error e => .error e

/-- The content of a string literal after its opening quote, and what follows the
closing quote. -/
def takeString : GoString → Option (GoString × GoString)
  | [] => none
  | c :: rest =>
    if c = 34 then some ([], rest)
    else if plain c then
      match takeString rest with
      | some (s, r) => some (c :: s, r)
      | none => none
    else none

/-- Reads one value: a string, `true`, `false`, `null` or an integer (decoded, as every
JSON number, to a `float64`). -/
def parseValue (s : GoString) : Option (GoAny × GoString) :=
  match s with
  | [] => none
  | c :: rest =>
    if c = 34 then
      match takeString rest with
      | some (str, r) => some (GoAny.string str, r)
      | none => none
    else if s.take 4 = ascii "true" then some (GoAny.bool true, s.drop 4)
    else if s.take 5 = ascii "false" then some (GoAny.bool false, s.drop 5)
    else if s.take 4 = ascii "null" then some (GoAny.other 0, s.drop 4)
    else
      let isNum : Fin 256 → Bool := fun b => decide (b = 45 ∨ (48 ≤ b.val ∧ b.val ≤ 57))
      match strconv.ParseInt (s.takeWhile isNum) with
      | some n => some (GoAny.float64 n, s.dropWhile isNum)
      | none => none

/-- Reads the members of an object up to the closing brace; a repeated key keeps its
last value. -/
def parseMembers : Nat → Payload → GoString → Option Payload
  | 0, _, _ => none
  | fuel + 1, acc, s =>
    match s with
    | [] => none
    | q :: rest =>
      if q ≠ 34 then none
      else
        match takeString rest with
        | none => none
        | some (k, r1) =>
          match r1 with
          | [] => none
          | colon :: r2 =>
            if colon ≠ 58 then none
            else
              match parseValue r2 with
              | none => none
              | some (v, r3) =>
                if r3 = [125] then some (acc.set k v)
                else
                  match r3 with
                  | [] => none
                  | comma :: r4 =>
                    if comma = 44 then parseMembers fuel (acc.set k v) r4 else none

/-- The function `json.Unmarshal` into a `map[string]any`, on compact flat objects. -/
def Unmarshal (s : GoString) : Option Payload :=
  if s = ascii "null" then some []
  else if s = [123, 125] then some []
  else
    match s with
    | [] => none
    | c :: rest => if c = 123 then parseMembers s.length [] rest else none

/-- The reference codec. -/
def flat : JSON ingestor.Event :=
  { Marshal := Marshal, Encode := Encode, Unmarshal := Unmarshal }

end json

/-! ## Sample data on which the services are run -/

namespace demo

/-- The writer of a process started without `HDFS_PATH`. -/
def writer : hdfsx.Writer := hdfsx.NewWriter []

/-- An ingestor just started: default local cache, empty tiers. -/
def state : ingestor.State :=
  { cache := cachex.NewLRU [] [], redis := fun _ => none, hdfs := fun _ => none }

/-- A valid event, flagged hot, without a TTL. -/
def event : ingestor.Event :=
  { Key := ascii "user:1", Value := some [(ascii "a", GoAny.float64 1)], TTLSeconds := 0,
    CacheHint := ascii "hot_read" }

/-- A request served while every call succeeds and the pressure is low. -/
def env : ingestor.IngestEnv :=
  { ratio := 1 / 2, now := 1700000000, setErr := none,
    jsonl := { nowMilli := 1700000000123, createErr := none, putErr := none } }

/-- The same request under memory pressure. -/
def pressed : ingestor.IngestEnv := { env with ratio := 9 / 10 }

/-- A retrieval whose calls do not fail. -/
def getEnv : ingestor.GetEnv := { getErr := none, catErr := false }


/-- The keyspace after the seed handler ran on an empty cluster at second 1700000000. -/
def seeded : redisx.Keyspace :=
  (ingestor.seedOldKeysHandler json.flat (fun _ => none) 1700000000 (fun _ => false) []).2

/-- The bytes the seed handler stores for index `i`. -/
def seedRecord (i : Nat) : GoString :=
  match json.Marshal (ingestor.seedValue 1699999880 i) with
  | .ok b => b
  | .error _ => []

/-- A visit of seed key `i` whose calls all succeed. -/
def visit (i : Nat) : offloader.Visit :=
  { key := ingestor.seedKey i, getErr := none, writeFileErr := false, putErr := false,
    delErr := false }

/-- A run 150 seconds after seeding: one shard returns the 20 seed keys in one page, the
memory ratio is 0.5, no call fails. -/
def runEnv : offloader.RunEnv :=
  { memRatio := 1 / 2, memErr := false, now1 := 1700000030000000000,
    now2 := 1700000030000000000, stateErr := false,
    shards := [{ pages := [(List.range 20).map visit], scanErr := false }] }

/-- The state of a run that starts on the seeded keyspace and an empty HDFS. -/
def runState : offloader.RunState :=
  { redis := seeded, hdfs := fun _ => none, n := ⟨0, 0, 0, 0, 0⟩, ops := [] }


/-- An ingestor whose local cache still holds a value read earlier for `user:1`. -/
def stale : ingestor.State :=
  { cache := { Enabled := true,
               LRU := { size := 1024, items := [(ingestor.valKey (ascii "user:1"), ascii "old")] } },
    redis := fun _ => none, hdfs := fun _ => none }

/-- A valid event whose value has a `_ts` entry of its own. -/
def stamped : ingestor.Event :=
  { Key := ascii "user:2", Value := some [(ascii "_ts", GoAny.string (ascii "mine"))],
    TTLSeconds := 60, CacheHint := ascii "none" }


/-- A run 700 seconds after the sample request: one shard returns the key `user:2`, the
memory ratio is 0.5, no call fails. -/
def sweepEnv : offloader.RunEnv :=
  { memRatio := 1 / 2, memErr := false, now1 := 1700000700000000000,
    now2 := 1700000700000000000, stateErr := false,
    shards := [{ pages := [[{ key := ascii "user:2", getErr := none, writeFileErr := false,
                              putErr := false, delErr := false }]], scanErr := false }] }

/-- An ingestor whose Redis holds a value for `user:1`, with an empty local cache. -/
def held : ingestor.State :=
  { cache := cachex.NewLRU [] [],
    redis := fun k => if k = ascii "user:1" then some (ascii "v1") else none,
    hdfs := fun _ => none }

/-- A valid event, flagged hot, whose key starts with `VAL:`. -/
def hotEvent : ingestor.Event :=
  { Key := ascii "VAL:foo", Value := some [], TTLSeconds := 0, CacheHint := ascii "hot_read" }

/-- The reply of a shard whose memory use is above its `maxmemory`. -/
def overInfo : GoString :=
  ascii ("# Memory\r\nused_memory:2097152\r\nused_memory_human:2.00M\r\n" ++
    "maxmemory:1048576\r\nmaxmemory_human:1.00M\r\n")

end demo

/-! ## Helper lemmas -/

theorem lru_Get_fst (c : lru.Cache) (k : GoString) : (c.Get k).1 = c.items.lookup k := by
  unfold lru.Cache.Get
  cases h : c.items.lookup k <;> simp

theorem requestKey_slash (key : GoString) : ingestor.requestKey (47 :: key) = key := by
  simp [ingestor.requestKey]

theorem cutoffOf_eq (now sec : Int) (h1 : -9223372036 ≤ sec) (h2 : sec ≤ 9223372036) :
    offloader.cutoffOf now sec = now / 1000000000 - sec := by
  unfold offloader.cutoffOf wrapInt64
  omega

/-! ## The file name of a key -/

set_option maxRecDepth 100000 in
theorem encodeURL_inj : ∀ i : Fin 64, ∀ j : Fin 64,
    base64.encodeURL i.val = base64.encodeURL j.val → i = j := by
  decide

theorem encodeURL_ne_pad : ∀ i : Fin 64, base64.encodeURL i.val ≠ base64.StdPadding := by
  decide

theorem encodeURL_inj_nat (i j : Nat) (hi : i < 64) (hj : j < 64)
    (h : base64.encodeURL i = base64.encodeURL j) : i = j := by
  have := encodeURL_inj ⟨i, hi⟩ ⟨j, hj⟩ h
  exact congrArg Fin.val this

theorem encodeURL_ne_pad_nat (i : Nat) (hi : i < 64) :
    base64.encodeURL i ≠ base64.StdPadding := encodeURL_ne_pad ⟨i, hi⟩

theorem raw_encode_injective : ∀ k1 k2 : GoString,
    base64.RawEncodeToString k1 = base64.RawEncodeToString k2 → k1 = k2 := by
  intro k1
  induction k1 using base64.RawEncodeToString.induct with
  | case1 a b c rest ih =>
    intro k2 h
    match k2, h with
    | a' :: b' :: c' :: rest', h =>
      simp only [base64.RawEncodeToString, List.cons.injEq] at h
      obtain ⟨h1, h2, h3, h4, h5⟩ := h
      have ha := a.isLt; have hb := b.isLt; have hc := c.isLt
      have ha' := a'.isLt; have hb' := b'.isLt; have hc' := c'.isLt
      have e1 := encodeURL_inj_nat _ _ (by omega) (by omega) h1
      have e2 := encodeURL_inj_nat _ _ (by omega) (by omega) h2
      have e3 := encodeURL_inj_nat _ _ (by omega) (by omega) h3
      have e4 := encodeURL_inj_nat _ _ (by omega) (by omega) h4
      have := ih rest' h5
      have hae : a = a' := Fin.ext (by omega)
      have hbe : b = b' := Fin.ext (by omega)
      have hce : c = c' := Fin.ext (by omega)
      subst hae hbe hce this
      rfl
    | [a', b'], h => simp [base64.RawEncodeToString] at h
    | [a'], h => simp [base64.RawEncodeToString] at h
    | [], h => simp [base64.RawEncodeToString] at h
  | case2 a b =>
    intro k2 h
    match k2, h with
    | a' :: b' :: c' :: rest', h => simp [base64.RawEncodeToString] at h
    | [a', b'], h =>
      simp only [base64.RawEncodeToString, List.cons.injEq] at h
      obtain ⟨h1, h2, h3, _⟩ := h
      have ha := a.isLt; have hb := b.isLt
      have ha' := a'.isLt; have hb' := b'.isLt
      have e1 := encodeURL_inj_nat _ _ (by omega) (by omega) h1
      have e2 := encodeURL_inj_nat _ _ (by omega) (by omega) h2
      have e3 := encodeURL_inj_nat _ _ (by omega) (by omega) h3
      have hae : a = a' := Fin.ext (by omega)
      have hbe : b = b' := Fin.ext (by omega)
      subst hae hbe
      rfl
    | [a'], h => simp [base64.RawEncodeToString] at h
    | [], h => simp [base64.RawEncodeToString] at h
  | case3 a =>
    intro k2 h
    match k2, h with
    | a' :: b' :: c' :: rest', h => simp [base64.RawEncodeToString] at h
    | [a', b'], h => simp [base64.RawEncodeToString] at h
    | [a'], h =>
      simp only [base64.RawEncodeToString, List.cons.injEq] at h
      obtain ⟨h1, h2, _⟩ := h
      have ha := a.isLt
      have ha' := a'.isLt
      have e1 := encodeURL_inj_nat _ _ (by omega) (by omega) h1
      have e2 := encodeURL_inj_nat _ _ (by omega) (by omega) h2
      have hae : a = a' := Fin.ext (by omega)
      subst hae
      rfl
    | [], h => simp [base64.RawEncodeToString] at h
  | case4 =>
    intro k2 h
    match k2, h with
    | a' :: b' :: c' :: rest', h => simp [base64.RawEncodeToString] at h
    | [a', b'], h => simp [base64.RawEncodeToString] at h
    | [a'], h => simp [base64.RawEncodeToString] at h
    | [], _ => rfl

theorem trimRight_append_pad (s : GoString) (c : Fin 256) (n : Nat) :
    strings.TrimRight (s ++ List.replicate n c) c = strings.TrimRight s c := by
  unfold strings.TrimRight
  induction n with
  | zero => simp
  | succ n ih =>
    rw [List.replicate_succ', ← List.append_assoc, List.reverse_append]
    simp [ih]

theorem trimRight_of_last_ne (s : GoString) (c : Fin 256)
    (h : ∀ x ∈ s.getLast?, x ≠ c) : strings.TrimRight s c = s := by
  unfold strings.TrimRight
  rcases List.eq_nil_or_concat s with rfl | ⟨t, x, rfl⟩
  · rfl
  · have hx : x ≠ c := h x (by simp)
    simp [hx]

theorem encode_eq_raw_pad (k : GoString) :
    ∃ n, base64.EncodeToString k = base64.RawEncodeToString k ++ List.replicate n base64.StdPadding ∧
      ∀ x ∈ (base64.RawEncodeToString k).getLast?, x ≠ base64.StdPadding := by
  induction k using base64.RawEncodeToString.induct with
  | case1 a b c rest ih =>
    obtain ⟨n, hn, hl⟩ := ih
    refine ⟨n, ?_, ?_⟩
    · simp [base64.EncodeToString, base64.RawEncodeToString, hn]
    · intro x hx
      have hc := c.isLt
      rcases hr : base64.RawEncodeToString rest with _ | ⟨y, ys⟩
      · simp [base64.RawEncodeToString, hr] at hx
        rw [← hx]; exact encodeURL_ne_pad_nat _ (by omega)
      · apply hl x
        simp only [base64.RawEncodeToString, hr] at hx ⊢
        simpa [List.getLast?_cons_cons] using hx
  | case2 a b =>
    refine ⟨1, by simp [base64.EncodeToString, base64.RawEncodeToString], ?_⟩
    intro x hx
    have hb := b.isLt
    simp [base64.RawEncodeToString] at hx
    rw [← hx]; exact encodeURL_ne_pad_nat _ (by omega)
  | case3 a =>
    refine ⟨2, by simp [base64.EncodeToString, base64.RawEncodeToString, List.replicate], ?_⟩
    intro x hx
    have ha := a.isLt
    simp [base64.RawEncodeToString] at hx
    rw [← hx]; exact encodeURL_ne_pad_nat _ (by omega)
  | case4 => exact ⟨0, by simp [base64.EncodeToString, base64.RawEncodeToString], by simp [base64.RawEncodeToString]⟩

theorem keyToSafeFileName_eq_raw (k : GoString) :
    hdfsx.keyToSafeFileName k = base64.RawEncodeToString k := by
  obtain ⟨n, hn, hl⟩ := encode_eq_raw_pad k
  unfold hdfsx.keyToSafeFileName
  rw [hn, trimRight_append_pad, trimRight_of_last_ne _ _ hl]

theorem keyToSafeFileName_injective (k1 k2 : GoString)
    (h : hdfsx.keyToSafeFileName k1 = hdfsx.keyToSafeFileName k2) : k1 = k2 := by
  rw [keyToSafeFileName_eq_raw, keyToSafeFileName_eq_raw] at h
  exact raw_encode_injective k1 k2 h

theorem keyPath_injective (w : hdfsx.Writer) (k1 k2 : GoString)
    (h : hdfsx.keyPath w k1 = hdfsx.keyPath w k2) : k1 = k2 := by
  unfold hdfsx.keyPath at h
  have h1 := List.append_cancel_right h
  have h2 := List.append_cancel_left h1
  exact keyToSafeFileName_injective k1 k2 h2

/-! ## The write path -/

open ingestor in
/-- C1. Every valid request to `/ingest` (non-empty key, value present) is answered with
status 200 and exactly one of `stored = "redis"` and `stored = "hdfs"`, whatever the
pressure sample, the codec and the outcomes of the tier calls are; `stored = "redis"` is
answered only when the pressure was below the threshold and `r.Set` returned no error, in
which case the `Set` was issued and the keyspace holds the key. -/
theorem ingest_terminal_outcome (J : JSON Event) (w : hdfsx.Writer) (soft : ℚ) (st : State)
    (env : IngestEnv) (ev : Event) (hkey : ev.Key ≠ []) (hval : ev.Value ≠ none) :
    ((ingestHandler J w soft st env (some ev)).1.status = 200) ∧
    (((ingestHandler J w soft st env (some ev)).1.stored = some "redis" ∧
        (ingestHandler J w soft st env (some ev)).1.stored ≠ some "hdfs") ∨
     ((ingestHandler J w soft st env (some ev)).1.stored = some "hdfs" ∧
        (ingestHandler J w soft st env (some ev)).1.stored ≠ some "redis")) ∧
    ((ingestHandler J w soft st env (some ev)).1.stored = some "redis" →
      env.setErr = none ∧ env.ratio < soft ∧
      ∃ b ttl, Call.redisSet ev.Key b ttl ∈ (ingestHandler J w soft st env (some ev)).2.2 ∧
        (ingestHandler J w soft st env (some ev)).2.1.redis ev.Key = some b) := by
  obtain ⟨value, hv⟩ := Option.ne_none_iff_exists'.mp hval
  simp only [ingestHandler, hv, hkey, if_false]
  by_cases hr : soft ≤ env.ratio
  · simp [hr]
  · simp only [hr, if_false]
    cases hm : J.Marshal (value.set (ascii "_ts") (GoAny.int64 env.now)) with
    | error e => simp
    | ok b =>
      cases hs : env.setErr with
      | some e => simp
      | none =>
        simp [redisx.Keyspace.set]
        constructor
        · exact lt_of_not_le hr
        · split <;> simp

open ingestor in
/-- Witness of C1: the sample event on a fresh ingestor. -/
theorem ingest_terminal_outcome_witness :
    demo.event.Key ≠ [] ∧ demo.event.Value ≠ none ∧
    (ingestHandler json.flat demo.writer (4 / 5) demo.state demo.env (some demo.event)).1.status
      = 200 :=
  ⟨by decide, by decide,
   (ingest_terminal_outcome json.flat demo.writer (4 / 5) demo.state demo.env demo.event
      (by decide) (by decide)).1⟩

open ingestor in
/-- C2. For every valid request, when the sampled ratio is at least the soft threshold the
handler answers `200, ok, stored = "hdfs"` (an answer that does not depend on the codec, so
not on whether the value can be serialized), calls `WriteJSONL` on the event, leaves HDFS
as that call leaves it, issues no `r.Set` and leaves the keyspace unchanged. -/
theorem ingest_pressure_routes_cold (J : JSON Event) (w : hdfsx.Writer) (soft : ℚ) (st : State)
    (env : IngestEnv) (ev : Event) (hkey : ev.Key ≠ []) (hval : ev.Value ≠ none)
    (hp : soft ≤ env.ratio) :
    (ingestHandler J w soft st env (some ev)).1 =
      { status := 200, ok := true, stored := some "hdfs", error := none,
        mem_ratio := some env.ratio } ∧
    Call.writeJSONL [if ev.TTLSeconds ≤ 0 then { ev with TTLSeconds := 3600 } else ev] ∈
      (ingestHandler J w soft st env (some ev)).2.2 ∧
    (ingestHandler J w soft st env (some ev)).2.1.hdfs =
      (hdfsx.WriteJSONL w J st.hdfs
        [if ev.TTLSeconds ≤ 0 then { ev with TTLSeconds := 3600 } else ev] env.jsonl).1 ∧
    (∀ k b ttl, Call.redisSet k b ttl ∉ (ingestHandler J w soft st env (some ev)).2.2) ∧
    (ingestHandler J w soft st env (some ev)).2.1.redis = st.redis := by
  obtain ⟨value, hv⟩ := Option.ne_none_iff_exists'.mp hval
  simp only [ingestHandler, hv, hkey, hp, if_false, if_true]
  refine ⟨trivial, by simp, trivial, ?_, trivial⟩
  intro k b ttl
  split <;> simp

open ingestor in
/-- Witness of C2: the sample event at ratio 0.9 against the threshold 0.8. -/
theorem ingest_pressure_routes_cold_witness :
    demo.event.Key ≠ [] ∧ demo.event.Value ≠ none ∧ (4 / 5 : ℚ) ≤ demo.pressed.ratio ∧
    (ingestHandler json.flat demo.writer (4 / 5) demo.state demo.pressed (some demo.event)).1 =
      { status := 200, ok := true, stored := some "hdfs", error := none,
        mem_ratio := some demo.pressed.ratio } :=
  ⟨by decide, by decide, by norm_num [demo.pressed, demo.env],
   (ingest_pressure_routes_cold json.flat demo.writer (4 / 5) demo.state demo.pressed demo.event
      (by decide) (by decide) (by norm_num [demo.pressed, demo.env])).1⟩

/-! ## The read path -/

open ingestor in
/-- C3. For every non-empty key and every state, `/get/<key>` follows the order local,
fast, cold, not found: it answers `source = "local_cache"` with the cached value exactly
when the cache is enabled and holds an entry under `VAL:<key>`; otherwise the value of the
Redis `GET` with `source = "redis"` when that call returns one; otherwise the output of
`ReadByKey` with `source = "hdfs"` when there is one; otherwise 404. A disabled cache, such
as the one `NewLRU` builds for `LOCAL_CACHE_HOTKEYS=0`, never gives `local_cache`. -/
theorem get_tier_order (w : hdfsx.Writer) (st : State) (env : GetEnv) (key : GoString)
    (hk : key ≠ []) :
    (∀ v, st.cache.Enabled = true → st.cache.LRU.items.lookup (valKey key) = some v →
      (getHandler w st env (47 :: key)).1 =
        { status := 200, ok := true, source := some "local_cache", value := some v,
          error := none }) ∧
    ((getHandler w st env (47 :: key)).1.source = some "local_cache" ↔
      (st.cache.Enabled = true ∧ ∃ v, st.cache.LRU.items.lookup (valKey key) = some v)) ∧
    (¬ (st.cache.Enabled = true ∧ ∃ v, st.cache.LRU.items.lookup (valKey key) = some v) →
      (∀ val, redisx.Get st.redis key env.getErr = .ok val →
        (getHandler w st env (47 :: key)).1 =
          { status := 200, ok := true, source := some "redis", value := some val,
            error := none }) ∧
      (∀ e, redisx.Get st.redis key env.getErr = .error e →
        (∀ buf, hdfsx.ReadByKey w st.hdfs key env.catErr = some buf →
          (getHandler w st env (47 :: key)).1 =
            { status := 200, ok := true, source := some "hdfs", value := some buf,
              error := none }) ∧
        (hdfsx.ReadByKey w st.hdfs key env.catErr = none →
          (getHandler w st env (47 :: key)).1 =
            { status := 404, ok := false, source := none, value := none,
              error := some e }))) ∧
    (st.cache.Enabled = false →
      (getHandler w st env (47 :: key)).1.source ≠ some "local_cache") ∧
    (∀ sizeVar, (cachex.NewLRU (ascii "0") sizeVar).Enabled = false) := by
  have hsrc : (getHandler w st env (47 :: key)).1.source = some "local_cache" ↔
      (st.cache.Enabled = true ∧ ∃ v, st.cache.LRU.items.lookup (valKey key) = some v) := by
    simp only [getHandler, requestKey_slash, hk, if_false]
    cases hen : st.cache.Enabled
    · simp only [Bool.false_eq_true, if_false, false_and, iff_false]
      cases redisx.Get st.redis key env.getErr with
      | error e => cases hdfsx.ReadByKey w st.hdfs key env.catErr <;> simp
      | ok val => simp
    · simp only [if_true, lru_Get_fst, true_and]
      cases hl : st.cache.LRU.items.lookup (valKey key) with
      | some v => simp
      | none =>
        simp only [reduceCtorEq, exists_false, iff_false]
        cases redisx.Get st.redis key env.getErr with
        | error e => cases hdfsx.ReadByKey w st.hdfs key env.catErr <;> simp
        | ok val => simp
  refine ⟨?_, hsrc, ?_, ?_, ?_⟩
  · intro v hen hl
    simp [getHandler, requestKey_slash, hk, hen, lru_Get_fst, hl]
  · intro hmiss
    have hnone : (if st.cache.Enabled = true then st.cache.LRU.Get (valKey key)
        else (none, st.cache.LRU)).1 = none := by
      cases hen : st.cache.Enabled
      · simp
      · simp only [if_true, lru_Get_fst]
        cases hl : st.cache.LRU.items.lookup (valKey key) with
        | none => rfl
        | some v => exact absurd ⟨hen, v, hl⟩ hmiss
    refine ⟨?_, ?_⟩
    · intro val hg
      simp only [getHandler, requestKey_slash, hk, if_false, hnone, hg]
      cases st.cache.Enabled <;> simp
    · intro e hg
      refine ⟨?_, ?_⟩
      · intro buf hb
        simp only [getHandler, requestKey_slash, hk, if_false, hnone, hg, hb]
      · intro hb
        simp only [getHandler, requestKey_slash, hk, if_false, hnone, hg, hb]
  · intro hen h
    rw [hsrc] at h
    rw [hen] at h
    exact absurd h.1 (by decide)
  · intro sizeVar
    simp [cachex.NewLRU]

open ingestor in
/-- Witness of C3: a key absent from every tier of a fresh ingestor is not found. -/
theorem get_tier_order_witness :
    ascii "user:1" ≠ [] ∧
    ((getHandler demo.writer demo.state demo.getEnv (47 :: ascii "user:1")).1.source
        = some "local_cache" ↔
      (demo.state.cache.Enabled = true ∧
        ∃ v, demo.state.cache.LRU.items.lookup (valKey (ascii "user:1")) = some v)) :=
  ⟨by decide,
   (get_tier_order demo.writer demo.state demo.getEnv (ascii "user:1") (by decide)).2.1⟩

/-! ## Validation -/

open ingestor in
/-- C10. The handler of `/ingest` answers 400 exactly when binding the body failed, the key
is empty or the value is absent; a request answered 400 gets `ok = false`, no `stored`
field, and causes no external write: the local cache, the keyspace and HDFS are unchanged.
Every other request is answered 200 with a `stored` outcome. -/
theorem ingest_rejects_iff_invalid (J : JSON Event) (w : hdfsx.Writer) (soft : ℚ) (st : State)
    (env : IngestEnv) (bound : Option Event) :
    ((ingestHandler J w soft st env bound).1.status = 400 ↔
      (bound = none ∨ ∃ ev, bound = some ev ∧ (ev.Key = [] ∨ ev.Value = none))) ∧
    ((ingestHandler J w soft st env bound).1.status = 400 →
      (ingestHandler J w soft st env bound).1.ok = false ∧
      (ingestHandler J w soft st env bound).1.stored = none ∧
      (ingestHandler J w soft st env bound).2.2 = [] ∧
      (ingestHandler J w soft st env bound).2.1.cache = st.cache ∧
      (ingestHandler J w soft st env bound).2.1.redis = st.redis ∧
      (ingestHandler J w soft st env bound).2.1.hdfs = st.hdfs) ∧
    ((ingestHandler J w soft st env bound).1.status ≠ 400 →
      (ingestHandler J w soft st env bound).1.status = 200 ∧
      ((ingestHandler J w soft st env bound).1.stored = some "redis" ∨
       (ingestHandler J w soft st env bound).1.stored = some "hdfs")) := by
  cases bound with
  | none => simp [ingestHandler, invalidEvent]
  | some ev =>
    cases hv : ev.Value with
    | none => simp [ingestHandler, invalidEvent, hv]
    | some value =>
      by_cases hk : ev.Key = []
      · simp [ingestHandler, invalidEvent, hv, hk]
      · simp only [ingestHandler, hv, hk, if_false]
        by_cases hr : soft ≤ env.ratio
        · simp [hr, hk, hv]
        · simp only [hr, if_false]
          cases hm : J.Marshal (value.set (ascii "_ts") (GoAny.int64 env.now)) with
          | error e => simp [hk, hv]
          | ok b =>
            cases hs : env.setErr with
            | some e => simp [hk, hv]
            | none => simp [hk, hv]

/-! ## The sweep: the loop body -/

theorem shouldMove_iff (force hasTS : Bool) (ts cutoff forceCutoff : Int) :
    offloader.shouldMove force hasTS ts cutoff forceCutoff = true ↔
      ((hasTS = true ∧ ts < cutoff) ∨ (force = true ∧ hasTS = true ∧ ts < forceCutoff) ∨
       (force = true ∧ hasTS = false)) := by
  unfold offloader.shouldMove
  cases force <;> cases hasTS <;> simp

open offloader in
theorem visitKey_get_error {E : Type} (J : JSON E) (w : hdfsx.Writer) (force : Bool)
    (cutoff forceCutoff : Int) (s : RunState) (v : Visit) (e : String)
    (hget : redisx.Get s.redis v.key v.getErr = .error e) :
    visitKey J w force cutoff forceCutoff s v =
      { s with n := { s.n with scanned := s.n.scanned + 1 } } := by
  simp [visitKey, hget]

open offloader in
theorem visitKey_cases {E : Type} (J : JSON E) (w : hdfsx.Writer) (force : Bool)
    (cutoff forceCutoff : Int) (s : RunState) (v : Visit) (val : GoString)
    (hget : redisx.Get s.redis v.key v.getErr = .ok val) :
    (visitKey J w force cutoff forceCutoff s v).n.scanned = s.n.scanned + 1 ∧
    (visitKey J w force cutoff forceCutoff s v).n.old = s.n.old +
      (if (extractTS J val).2 = true ∧ (extractTS J val).1 < cutoff then 1 else 0) ∧
    (visitKey J w force cutoff forceCutoff s v).n.parseFail = s.n.parseFail +
      (if (extractTS J val).2 = false then 1 else 0) ∧
    ((shouldMove force (extractTS J val).2 (extractTS J val).1 cutoff forceCutoff = false ∧
      (visitKey J w force cutoff forceCutoff s v).ops = s.ops ∧
      (visitKey J w force cutoff forceCutoff s v).redis = s.redis ∧
      (visitKey J w force cutoff forceCutoff s v).hdfs = s.hdfs ∧
      (visitKey J w force cutoff forceCutoff s v).n.moved = s.n.moved ∧
      (visitKey J w force cutoff forceCutoff s v).n.writeFail = s.n.writeFail) ∨
     (shouldMove force (extractTS J val).2 (extractTS J val).1 cutoff forceCutoff = true ∧
      (v.writeFileErr = true ∨ v.putErr = true) ∧
      (visitKey J w force cutoff forceCutoff s v).ops = s.ops ++ [Op.write v.key val false] ∧
      (visitKey J w force cutoff forceCutoff s v).redis = s.redis ∧
      (visitKey J w force cutoff forceCutoff s v).hdfs = s.hdfs ∧
      (visitKey J w force cutoff forceCutoff s v).n.moved = s.n.moved ∧
      (visitKey J w force cutoff forceCutoff s v).n.writeFail = s.n.writeFail + 1) ∨
     (shouldMove force (extractTS J val).2 (extractTS J val).1 cutoff forceCutoff = true ∧
      v.writeFileErr = false ∧ v.putErr = false ∧ v.delErr = true ∧
      (visitKey J w force cutoff forceCutoff s v).ops =
        s.ops ++ [Op.write v.key val true, Op.del v.key false] ∧
      (visitKey J w force cutoff forceCutoff s v).redis = s.redis ∧
      (visitKey J w force cutoff forceCutoff s v).hdfs = s.hdfs.put (hdfsx.keyPath w v.key) val ∧
      (visitKey J w force cutoff forceCutoff s v).n.moved = s.n.moved ∧
      (visitKey J w force cutoff forceCutoff s v).n.writeFail = s.n.writeFail) ∨
     (shouldMove force (extractTS J val).2 (extractTS J val).1 cutoff forceCutoff = true ∧
      v.writeFileErr = false ∧ v.putErr = false ∧ v.delErr = false ∧
      (visitKey J w force cutoff forceCutoff s v).ops =
        s.ops ++ [Op.write v.key val true, Op.del v.key true] ∧
      (visitKey J w force cutoff forceCutoff s v).redis = s.redis.del v.key ∧
      (visitKey J w force cutoff forceCutoff s v).hdfs = s.hdfs.put (hdfsx.keyPath w v.key) val ∧
      (visitKey J w force cutoff forceCutoff s v).n.moved = s.n.moved + 1 ∧
      (visitKey J w force cutoff forceCutoff s v).n.writeFail = s.n.writeFail)) := by
  simp only [visitKey, hget]
  generalize extractTS J val = r
  obtain ⟨ts, hasTS⟩ := r
  cases hm : shouldMove force hasTS ts cutoff forceCutoff <;>
    cases hasTS <;> cases hw : v.writeFileErr <;> cases hp : v.putErr <;> cases hd : v.delErr <;>
    by_cases hc : ts < cutoff <;>
    simp [hm, hw, hp, hd, hc, hdfsx.WriteKeyValue]

open offloader in
/-- C6. A key whose value was read is written to the cold tier (its move is attempted)
exactly when (a) its value carries a timestamp and its age exceeds `offloadAfterSec`, or
(b) force mode is on (no error from the memory check and ratio at least `forceMemRatio`),
the value carries a timestamp and its age exceeds `forceMinAgeSec`, or (c) force mode is on
and the value carries no timestamp. With force mode off, a key without a timestamp causes
no write and stays in Redis. The age is the Unix second of the clock reading minus the
timestamp; both cutoffs are taken within the range of `time.Duration`. -/
theorem offload_eligibility {E : Type} (J : JSON E) (w : hdfsx.Writer) (env : RunEnv)
    (offloadAfterSec forceMinAgeSec : Int) (forceMemRatio : ℚ) (s : RunState) (v : Visit)
    (val : GoString)
    (hafter : -9223372036 ≤ offloadAfterSec ∧ offloadAfterSec ≤ 9223372036)
    (hforce : -9223372036 ≤ forceMinAgeSec ∧ forceMinAgeSec ≤ 9223372036)
    (hget : redisx.Get s.redis v.key v.getErr = .ok val) :
    ((∃ ok rest, (visitKey J w (!env.memErr && decide (forceMemRatio ≤ env.memRatio))
          (cutoffOf env.now1 offloadAfterSec) (cutoffOf env.now2 forceMinAgeSec) s v).ops =
        s.ops ++ Op.write v.key val ok :: rest) ↔
      (((extractTS J val).2 = true ∧
          offloadAfterSec < env.now1 / 1000000000 - (extractTS J val).1) ∨
       ((env.memErr = false ∧ forceMemRatio ≤ env.memRatio) ∧ (extractTS J val).2 = true ∧
          forceMinAgeSec < env.now2 / 1000000000 - (extractTS J val).1) ∨
       ((env.memErr = false ∧ forceMemRatio ≤ env.memRatio) ∧ (extractTS J val).2 = false))) ∧
    (¬ (env.memErr = false ∧ forceMemRatio ≤ env.memRatio) → (extractTS J val).2 = false →
      (visitKey J w (!env.memErr && decide (forceMemRatio ≤ env.memRatio))
          (cutoffOf env.now1 offloadAfterSec) (cutoffOf env.now2 forceMinAgeSec) s v).ops = s.ops ∧
      (visitKey J w (!env.memErr && decide (forceMemRatio ≤ env.memRatio))
          (cutoffOf env.now1 offloadAfterSec) (cutoffOf env.now2 forceMinAgeSec) s v).redis
        = s.redis) := by
  have hops : ∀ (xs : List Op) (a : Op) (r : List Op), xs ++ a :: r ≠ xs := by
    intro xs a r h
    have := congrArg List.length h
    simp at this
  have hf : (env.memErr = false ∧ forceMemRatio ≤ env.memRatio) ↔
      (!env.memErr && decide (forceMemRatio ≤ env.memRatio)) = true := by simp
  have hmove := shouldMove_iff (!env.memErr && decide (forceMemRatio ≤ env.memRatio))
    (extractTS J val).2 (extractTS J val).1 (cutoffOf env.now1 offloadAfterSec)
    (cutoffOf env.now2 forceMinAgeSec)
  rw [cutoffOf_eq _ _ hafter.1 hafter.2, cutoffOf_eq _ _ hforce.1 hforce.2, ← hf] at hmove
  have hage1 : (extractTS J val).1 < env.now1 / 1000000000 - offloadAfterSec ↔
      offloadAfterSec < env.now1 / 1000000000 - (extractTS J val).1 := by
    constructor <;> intro h <;> omega
  have hage2 : (extractTS J val).1 < env.now2 / 1000000000 - forceMinAgeSec ↔
      forceMinAgeSec < env.now2 / 1000000000 - (extractTS J val).1 := by
    constructor <;> intro h <;> omega
  rw [hage1, hage2] at hmove
  have hc := (visitKey_cases J w (!env.memErr && decide (forceMemRatio ≤ env.memRatio))
    (cutoffOf env.now1 offloadAfterSec) (cutoffOf env.now2 forceMinAgeSec) s v val hget).2.2.2
  rw [cutoffOf_eq _ _ hafter.1 hafter.2, cutoffOf_eq _ _ hforce.1 hforce.2] at hc ⊢
  refine ⟨?_, ?_⟩
  · rw [← hmove]
    rcases hc with h | h | h | h
    · rw [h.1, h.2.1]
      simp [hops]
    · rw [h.1, h.2.2.1]
      simp
    · rw [h.1, h.2.2.2.2.1]
      simp
    · rw [h.1, h.2.2.2.2.1]
      simp
  · intro hnf hts
    have hno : ¬ (shouldMove (!env.memErr && decide (forceMemRatio ≤ env.memRatio))
        (extractTS J val).2 (extractTS J val).1 (env.now1 / 1000000000 - offloadAfterSec)
        (env.now2 / 1000000000 - forceMinAgeSec) = true) := by
      rw [hmove]
      rintro (h | h | h)
      · rw [hts] at h; exact absurd h.1 (by decide)
      · exact hnf h.1
      · exact hnf h.1
    rcases hc with h | h | h | h
    · exact ⟨h.2.1, h.2.2.1⟩
    · exact absurd h.1 hno
    · exact absurd h.1 hno
    · exact absurd h.1 hno

open offloader in
/-- Witness of C6: seed key 3, 150 seconds old, against an age cutoff of 60 seconds. -/
theorem offload_eligibility_witness :
    (-9223372036 ≤ (60 : Int) ∧ (60 : Int) ≤ 9223372036) ∧
    (-9223372036 ≤ (5 : Int) ∧ (5 : Int) ≤ 9223372036) ∧
    redisx.Get demo.runState.redis (demo.visit 3).key (demo.visit 3).getErr
      = .ok (demo.seedRecord 3) ∧
    ((∃ ok rest, (visitKey json.flat demo.writer
          (!demo.runEnv.memErr && decide ((7 / 10 : ℚ) ≤ demo.runEnv.memRatio))
          (cutoffOf demo.runEnv.now1 60) (cutoffOf demo.runEnv.now2 5) demo.runState
          (demo.visit 3)).ops =
        demo.runState.ops ++ Op.write (demo.visit 3).key (demo.seedRecord 3) ok :: rest) ↔
      (((extractTS json.flat (demo.seedRecord 3)).2 = true ∧
          60 < demo.runEnv.now1 / 1000000000 - (extractTS json.flat (demo.seedRecord 3)).1) ∨
       ((demo.runEnv.memErr = false ∧ (7 / 10 : ℚ) ≤ demo.runEnv.memRatio) ∧
          (extractTS json.flat (demo.seedRecord 3)).2 = true ∧
          5 < demo.runEnv.now2 / 1000000000 - (extractTS json.flat (demo.seedRecord 3)).1) ∨
       ((demo.runEnv.memErr = false ∧ (7 / 10 : ℚ) ≤ demo.runEnv.memRatio) ∧
          (extractTS json.flat (demo.seedRecord 3)).2 = false))) :=
  ⟨by decide, by decide, by rfl,
   (offload_eligibility json.flat demo.writer demo.runEnv 60 5 (7 / 10) demo.runState
      (demo.visit 3) (demo.seedRecord 3) (by decide) (by decide) (by rfl)).1⟩

/-! ## The sweep: a whole run -/

theorem replayWrites_append (w : hdfsx.Writer) (xs ys : List offloader.Op) (fs : hdfsx.Files) :
    offloader.replayWrites w (xs ++ ys) fs
      = offloader.replayWrites w ys (offloader.replayWrites w xs fs) := by
  induction xs generalizing fs with
  | nil => rfl
  | cons op rest ih =>
    cases op with
    | write k v ok => cases ok <;> simp [offloader.replayWrites, ih]
    | del k ok => simp [offloader.replayWrites, ih]

theorem del_after_write_append (xs c : List offloader.Op)
    (hxs : ∀ pre post k ok, xs = pre ++ offloader.Op.del k ok :: post →
      ∃ pre' v, pre = pre' ++ [offloader.Op.write k v true])
    (hc : c = [] ∨ (∃ k v, c = [offloader.Op.write k v false]) ∨
      (∃ k v ok, c = [offloader.Op.write k v true, offloader.Op.del k ok])) :
    ∀ pre post k ok, xs ++ c = pre ++ offloader.Op.del k ok :: post →
      ∃ pre' v, pre = pre' ++ [offloader.Op.write k v true] := by
  intro pre post k ok h
  rw [List.append_eq_append_iff] at h
  rcases h with ⟨a, hpre, hca⟩ | ⟨a, hxa, hda⟩
  · -- the delete lies in the new chunk
    rcases hc with rfl | ⟨k', v', rfl⟩ | ⟨k', v', ok', rfl⟩
    · simp at hca
    · rcases a with _ | ⟨x, a⟩ <;> simp at hca
    · rcases a with _ | ⟨x, a⟩
      · simp at hca
      · rcases a with _ | ⟨y, a⟩
        · simp at hca
          obtain ⟨rfl, ⟨rfl, rfl⟩, rfl⟩ := hca
          exact ⟨xs, v', by simp [hpre]⟩
        · simp at hca
  · rcases a with _ | ⟨x, a⟩
    · simp at hda
      rcases hc with rfl | ⟨k', v', rfl⟩ | ⟨k', v', ok', rfl⟩ <;> simp at hda
    · simp at hda
      obtain ⟨rfl, _⟩ := hda
      exact hxs pre _ k ok hxa

open offloader in
theorem runInv_init (w : hdfsx.Writer) (redis0 : redisx.Keyspace) (hdfs0 : hdfsx.Files) :
    RunInv w redis0 hdfs0 { redis := redis0, hdfs := hdfs0, n := ⟨0, 0, 0, 0, 0⟩, ops := [] } where
  redis_eq := by simp
  hdfs_eq := rfl
  write_val := by simp
  del_after_write := by simp
  writeFail_eq := rfl
  moved_eq := rfl

open offloader in
theorem runInv_visitKey {E : Type} (J : JSON E) (w : hdfsx.Writer) (force : Bool)
    (cutoff forceCutoff : Int) (redis0 : redisx.Keyspace) (hdfs0 : hdfsx.Files)
    (s : RunState) (v : Visit) (h : RunInv w redis0 hdfs0 s) :
    RunInv w redis0 hdfs0 (visitKey J w force cutoff forceCutoff s v) := by
  cases hget : redisx.Get s.redis v.key v.getErr with
  | error e =>
    rw [visitKey_get_error J w force cutoff forceCutoff s v e hget]
    exact ⟨h.redis_eq, h.hdfs_eq, h.write_val, h.del_after_write, h.writeFail_eq, h.moved_eq⟩
  | ok val =>
    have hval : redis0 v.key = some val := by
      have hr := h.redis_eq v.key
      unfold redisx.Get at hget
      cases hge : v.getErr with
      | some e => simp [hge] at hget
      | none =>
        simp only [hge] at hget
        cases hs : s.redis v.key with
        | none => simp [hs] at hget
        | some x =>
          simp only [hs, Except.ok.injEq] at hget
          rw [hs] at hr
          split at hr
          · exact absurd hr (by simp)
          · rw [← hr, hget]
    rcases (visitKey_cases J w force cutoff forceCutoff s v val hget).2.2.2 with
      c | c | c | c
    · obtain ⟨_, ho, hr, hh, hm, hf⟩ := c
      exact ⟨by rw [hr, ho]; exact h.redis_eq, by rw [hh, ho]; exact h.hdfs_eq,
        by rw [ho]; exact h.write_val, by rw [ho]; exact h.del_after_write,
        by rw [hf, ho]; exact h.writeFail_eq, by rw [hm, ho]; exact h.moved_eq⟩
    · obtain ⟨_, _, ho, hr, hh, hm, hf⟩ := c
      refine ⟨?_, ?_, ?_, ?_, ?_, ?_⟩
      · intro k; rw [hr, ho, h.redis_eq k]; simp
      · rw [hh, ho, replayWrites_append, ← h.hdfs_eq]; rfl
      · intro k x ok hk
        rw [ho] at hk
        simp only [List.mem_append, List.mem_singleton, Op.write.injEq] at hk
        rcases hk with hk | ⟨rfl, rfl, _⟩
        · exact h.write_val k x ok hk
        · exact hval
      · rw [ho]
        exact del_after_write_append s.ops _ h.del_after_write (Or.inr (Or.inl ⟨_, _, rfl⟩))
      · rw [hf, ho, List.countP_append, ← h.writeFail_eq]; rfl
      · rw [hm, ho, List.countP_append, ← h.moved_eq]; rfl
    · obtain ⟨_, _, _, _, ho, hr, hh, hm, hf⟩ := c
      refine ⟨?_, ?_, ?_, ?_, ?_, ?_⟩
      · intro k; rw [hr, ho, h.redis_eq k]; simp
      · rw [hh, ho, replayWrites_append, ← h.hdfs_eq]; rfl
      · intro k x ok hk
        rw [ho] at hk
        simp only [List.mem_append, List.mem_cons, Op.write.injEq, List.mem_singleton,
          reduceCtorEq, or_false, List.not_mem_nil] at hk
        rcases hk with hk | ⟨rfl, rfl, _⟩
        · exact h.write_val k x ok hk
        · exact hval
      · rw [ho]
        exact del_after_write_append s.ops _ h.del_after_write (Or.inr (Or.inr ⟨_, _, _, rfl⟩))
      · rw [hf, ho, List.countP_append, ← h.writeFail_eq]; rfl
      · rw [hm, ho, List.countP_append, ← h.moved_eq]; rfl
    · obtain ⟨_, _, _, _, ho, hr, hh, hm, hf⟩ := c
      refine ⟨?_, ?_, ?_, ?_, ?_, ?_⟩
      · intro k
        rw [hr, ho]
        unfold redisx.Keyspace.del
        rw [h.redis_eq k]
        by_cases hk : k = v.key
        · simp [hk]
        · have : ¬ v.key = k := fun e => hk e.symm
          simp [hk, this]
      · rw [hh, ho, replayWrites_append, ← h.hdfs_eq]; rfl
      · intro k x ok hk
        rw [ho] at hk
        simp only [List.mem_append, List.mem_cons, Op.write.injEq, List.mem_singleton,
          reduceCtorEq, or_false, List.not_mem_nil] at hk
        rcases hk with hk | ⟨rfl, rfl, _⟩
        · exact h.write_val k x ok hk
        · exact hval
      · rw [ho]
        exact del_after_write_append s.ops _ h.del_after_write (Or.inr (Or.inr ⟨_, _, _, rfl⟩))
      · rw [hf, ho, List.countP_append, ← h.writeFail_eq]; rfl
      · rw [hm, ho, List.countP_append, ← h.moved_eq]; rfl

open offloader in
theorem shards_foldl_eq_sweep {E : Type} (J : JSON E) (w : hdfsx.Writer) (force : Bool)
    (cutoff forceCutoff : Int) (env : RunEnv) (s0 : RunState) :
    (if env.stateErr = true then s0
      else env.shards.foldl (scanShard J w force cutoff forceCutoff) s0) =
      sweep J w force cutoff forceCutoff s0 env.visits := by
  unfold sweep RunEnv.visits
  cases env.stateErr
  · simp only [Bool.false_eq_true, if_false, List.foldl_flatten, List.foldl_map]
    rfl
  · simp

open offloader in
theorem doOffload_eq_sweep {E : Type} (J : JSON E) (w : hdfsx.Writer) (redis : redisx.Keyspace)
    (hdfs : hdfsx.Files) (env : RunEnv) (offloadAfterSec : Int) (forceMemRatio : ℚ)
    (forceMinAgeSec : Int) :
    (doOffload J w redis hdfs env offloadAfterSec forceMemRatio forceMinAgeSec).redis =
      (sweep J w (!env.memErr && decide (forceMemRatio ≤ env.memRatio))
        (cutoffOf env.now1 offloadAfterSec) (cutoffOf env.now2 forceMinAgeSec)
        { redis := redis, hdfs := hdfs, n := ⟨0, 0, 0, 0, 0⟩, ops := [] } env.visits).redis ∧
    (doOffload J w redis hdfs env offloadAfterSec forceMemRatio forceMinAgeSec).hdfs =
      (sweep J w (!env.memErr && decide (forceMemRatio ≤ env.memRatio))
        (cutoffOf env.now1 offloadAfterSec) (cutoffOf env.now2 forceMinAgeSec)
        { redis := redis, hdfs := hdfs, n := ⟨0, 0, 0, 0, 0⟩, ops := [] } env.visits).hdfs ∧
    (doOffload J w redis hdfs env offloadAfterSec forceMemRatio forceMinAgeSec).n =
      (sweep J w (!env.memErr && decide (forceMemRatio ≤ env.memRatio))
        (cutoffOf env.now1 offloadAfterSec) (cutoffOf env.now2 forceMinAgeSec)
        { redis := redis, hdfs := hdfs, n := ⟨0, 0, 0, 0, 0⟩, ops := [] } env.visits).n ∧
    (doOffload J w redis hdfs env offloadAfterSec forceMemRatio forceMinAgeSec).ops =
      (sweep J w (!env.memErr && decide (forceMemRatio ≤ env.memRatio))
        (cutoffOf env.now1 offloadAfterSec) (cutoffOf env.now2 forceMinAgeSec)
        { redis := redis, hdfs := hdfs, n := ⟨0, 0, 0, 0, 0⟩, ops := [] } env.visits).ops := by
  simp only [doOffload, shards_foldl_eq_sweep, and_self]

open offloader in
theorem doOffload_report {E : Type} (J : JSON E) (w : hdfsx.Writer) (redis : redisx.Keyspace)
    (hdfs : hdfsx.Files) (env : RunEnv) (offloadAfterSec : Int) (forceMemRatio : ℚ)
    (forceMinAgeSec : Int) (hstate : env.stateErr = false)
    (hscan : ∀ sh ∈ env.shards, sh.scanErr = false)
    (hn : 0 < (doOffload J w redis hdfs env offloadAfterSec forceMemRatio forceMinAgeSec).n.scanned) :
    (doOffload J w redis hdfs env offloadAfterSec forceMemRatio forceMinAgeSec).report =
      some (doOffload J w redis hdfs env offloadAfterSec forceMemRatio forceMinAgeSec).n := by
  have hany : env.shards.any (fun sh => sh.scanErr) = false := by
    rw [List.any_eq_false]
    intro sh hm
    simp [hscan sh hm]
  simp only [doOffload, hstate, Bool.false_eq_true, if_false] at hn ⊢
  simp only [hany, Bool.false_or, Bool.not_false, Bool.true_and, decide_eq_true hn,
    Bool.true_or, if_true]

open offloader in
theorem runInv_sweep {E : Type} (J : JSON E) (w : hdfsx.Writer) (force : Bool)
    (cutoff forceCutoff : Int) (redis0 : redisx.Keyspace) (hdfs0 : hdfsx.Files)
    (vs : List Visit) : ∀ s : RunState, RunInv w redis0 hdfs0 s →
      RunInv w redis0 hdfs0 (sweep J w force cutoff forceCutoff s vs) := by
  induction vs with
  | nil => intro s h; exact h
  | cons v vs ih =>
    intro s h
    exact ih _ (runInv_visitKey J w force cutoff forceCutoff redis0 hdfs0 s v h)

open offloader in
theorem visitKey_write_count {E : Type} (J : JSON E) (w : hdfsx.Writer) (force : Bool)
    (cutoff forceCutoff : Int) (s : RunState) (v : Visit) (k : GoString) :
    (visitKey J w force cutoff forceCutoff s v).ops.countP (Op.isWriteOf k) ≤
      s.ops.countP (Op.isWriteOf k) + (if v.key = k then 1 else 0) := by
  cases hget : redisx.Get s.redis v.key v.getErr with
  | error e => rw [visitKey_get_error J w force cutoff forceCutoff s v e hget]; simp
  | ok val =>
    rcases (visitKey_cases J w force cutoff forceCutoff s v val hget).2.2.2 with
      c | c | c | c
    · rw [c.2.1]; simp
    · rw [c.2.2.1, List.countP_append]
      by_cases hk : v.key = k <;> simp [List.countP_cons, Op.isWriteOf, hk]
    · rw [c.2.2.2.2.1, List.countP_append]
      by_cases hk : v.key = k <;> simp [List.countP_cons, Op.isWriteOf, hk]
    · rw [c.2.2.2.2.1, List.countP_append]
      by_cases hk : v.key = k <;> simp [List.countP_cons, Op.isWriteOf, hk]

open offloader in
theorem sweep_write_count {E : Type} (J : JSON E) (w : hdfsx.Writer) (force : Bool)
    (cutoff forceCutoff : Int) (k : GoString) (vs : List Visit) : ∀ s : RunState,
    (sweep J w force cutoff forceCutoff s vs).ops.countP (Op.isWriteOf k) ≤
      s.ops.countP (Op.isWriteOf k) + vs.countP (fun v => decide (v.key = k)) := by
  induction vs with
  | nil => intro s; simp [sweep]
  | cons v vs ih =>
    intro s
    have h1 := ih (visitKey J w force cutoff forceCutoff s v)
    have h2 := visitKey_write_count J w force cutoff forceCutoff s v k
    have h3 : (v :: vs).countP (fun v => decide (v.key = k)) =
        vs.countP (fun v => decide (v.key = k)) + (if v.key = k then 1 else 0) := by
      rw [List.countP_cons]; simp
    rw [h3]
    change (sweep J w force cutoff forceCutoff (visitKey J w force cutoff forceCutoff s v) vs).ops.countP
      (Op.isWriteOf k) ≤ _
    omega

open offloader in
/-- C4. In every run of `doOffload`, whatever the calls return: (0) the keyspace after the
run is the initial one without the keys whose `Del` succeeded; (1) every `Del` of a key
comes right after a `WriteKeyValue` of that key that returned no error and that carried the
value the keyspace held for the key; (2) a failed `WriteKeyValue` is never followed by a
`Del`; (3) a key without a successful write in the run keeps its value in Redis; (4) the
write-failure counter is the number of failed writes; (5) a key is written at most once per
time `SCAN` returned it: there is no retry. -/
theorem offload_write_then_delete {E : Type} (J : JSON E) (w : hdfsx.Writer)
    (redis : redisx.Keyspace) (hdfs : hdfsx.Files) (env : RunEnv) (offloadAfterSec : Int)
    (forceMemRatio : ℚ) (forceMinAgeSec : Int) :
    (∀ k, (doOffload J w redis hdfs env offloadAfterSec forceMemRatio forceMinAgeSec).redis k =
      if Op.del k true ∈
          (doOffload J w redis hdfs env offloadAfterSec forceMemRatio forceMinAgeSec).ops
        then none else redis k) ∧
    (∀ pre post k ok,
      (doOffload J w redis hdfs env offloadAfterSec forceMemRatio forceMinAgeSec).ops =
        pre ++ Op.del k ok :: post →
      ∃ pre' v, pre = pre' ++ [Op.write k v true] ∧ redis k = some v) ∧
    (∀ pre post k v,
      (doOffload J w redis hdfs env offloadAfterSec forceMemRatio forceMinAgeSec).ops =
        pre ++ Op.write k v false :: post →
      ∀ k' ok, post.head? ≠ some (Op.del k' ok)) ∧
    (∀ k, (∀ v, Op.write k v true ∉
        (doOffload J w redis hdfs env offloadAfterSec forceMemRatio forceMinAgeSec).ops) →
      (doOffload J w redis hdfs env offloadAfterSec forceMemRatio forceMinAgeSec).redis k
        = redis k) ∧
    ((doOffload J w redis hdfs env offloadAfterSec forceMemRatio forceMinAgeSec).n.writeFail =
      (doOffload J w redis hdfs env offloadAfterSec forceMemRatio forceMinAgeSec).ops.countP
        Op.isFailedWrite) ∧
    (∀ k, (doOffload J w redis hdfs env offloadAfterSec forceMemRatio forceMinAgeSec).ops.countP
        (Op.isWriteOf k) ≤ env.visits.countP (fun v => decide (v.key = k))) := by
  obtain ⟨hr, _, hn, ho⟩ := doOffload_eq_sweep J w redis hdfs env offloadAfterSec forceMemRatio
    forceMinAgeSec
  have inv := runInv_sweep J w (!env.memErr && decide (forceMemRatio ≤ env.memRatio))
    (cutoffOf env.now1 offloadAfterSec) (cutoffOf env.now2 forceMinAgeSec) redis hdfs env.visits
    _ (runInv_init w redis hdfs)
  rw [hr, hn, ho]
  refine ⟨inv.redis_eq, ?_, ?_, ?_, inv.writeFail_eq, ?_⟩
  · intro pre post k ok h
    obtain ⟨pre', v, hp⟩ := inv.del_after_write pre post k ok h
    refine ⟨pre', v, hp, inv.write_val k v true ?_⟩
    rw [h, hp]; simp
  · intro pre post k v h k' ok hhead
    rcases post with _ | ⟨x, post⟩
    · simp at hhead
    · simp only [List.head?_cons, Option.some.injEq] at hhead
      subst hhead
      have h' := h
      rw [show pre ++ Op.write k v false :: Op.del k' ok :: post =
        (pre ++ [Op.write k v false]) ++ Op.del k' ok :: post by simp] at h'
      obtain ⟨pre', v', hp⟩ := inv.del_after_write _ post k' ok h'
      have := congrArg List.getLast? hp
      simp at this
  · intro k hk
    rw [inv.redis_eq k]
    split
    · rename_i hd
      obtain ⟨pre, post, hsplit⟩ := List.append_of_mem hd
      obtain ⟨pre', v, hp⟩ := inv.del_after_write pre post k true hsplit
      exfalso
      apply hk v
      rw [hsplit, hp]; simp
    · rfl
  · intro k
    have := sweep_write_count J w (!env.memErr && decide (forceMemRatio ≤ env.memRatio))
      (cutoffOf env.now1 offloadAfterSec) (cutoffOf env.now2 forceMinAgeSec) k env.visits
      { redis := redis, hdfs := hdfs, n := ⟨0, 0, 0, 0, 0⟩, ops := [] }
    simpa using this

theorem replayWrites_hit (w : hdfsx.Writer) (p val : GoString) (ops : List offloader.Op) :
    ∀ fs : hdfsx.Files,
    (∀ k v, offloader.Op.write k v true ∈ ops → hdfsx.keyPath w k = p → v = val) →
    (fs p = some val ∨ ∃ k, offloader.Op.write k val true ∈ ops ∧ hdfsx.keyPath w k = p) →
    offloader.replayWrites w ops fs p = some val := by
  induction ops with
  | nil =>
    intro fs _ h
    rcases h with h | ⟨k, hk, _⟩
    · exact h
    · simp at hk
  | cons op rest ih =>
    intro fs hall h
    have hall' : ∀ k v, offloader.Op.write k v true ∈ rest → hdfsx.keyPath w k = p → v = val :=
      fun k v hm => hall k v (List.mem_cons_of_mem _ hm)
    cases op with
    | del k ok =>
      simp only [offloader.replayWrites]
      apply ih fs hall'
      rcases h with h | ⟨k', hk', hp⟩
      · exact Or.inl h
      · simp only [List.mem_cons, reduceCtorEq, false_or] at hk'
        exact Or.inr ⟨k', hk', hp⟩
    | write k v ok =>
      cases ok with
      | false =>
        simp only [offloader.replayWrites]
        apply ih fs hall'
        rcases h with h | ⟨k', hk', hp⟩
        · exact Or.inl h
        · simp only [List.mem_cons, offloader.Op.write.injEq, Bool.true_eq_false, and_false,
            false_or] at hk'
          exact Or.inr ⟨k', hk', hp⟩
      | true =>
        simp only [offloader.replayWrites]
        apply ih _ hall'
        by_cases hkp : hdfsx.keyPath w k = p
        · left
          have := hall k v (List.mem_cons_self _ _) hkp
          simp [hdfsx.Files.put, hkp, this]
        · rcases h with h | ⟨k', hk', hp⟩
          · left
            have : ¬ p = hdfsx.keyPath w k := fun e => hkp e.symm
            simp [hdfsx.Files.put, this, h]
          · simp only [List.mem_cons, offloader.Op.write.injEq, and_true] at hk'
            rcases hk' with ⟨rfl, _⟩ | hk'
            · exact absurd hp hkp
            · exact Or.inr ⟨k', hk', hp⟩

theorem replayWrites_miss (w : hdfsx.Writer) (p : GoString) (ops : List offloader.Op) :
    ∀ fs : hdfsx.Files,
    (∀ k v, offloader.Op.write k v true ∈ ops → hdfsx.keyPath w k ≠ p) →
    offloader.replayWrites w ops fs p = fs p := by
  induction ops with
  | nil => intro fs _; rfl
  | cons op rest ih =>
    intro fs hall
    have hall' : ∀ k v, offloader.Op.write k v true ∈ rest → hdfsx.keyPath w k ≠ p :=
      fun k v hm => hall k v (List.mem_cons_of_mem _ hm)
    cases op with
    | del k ok => simp only [offloader.replayWrites]; exact ih fs hall'
    | write k v ok =>
      cases ok with
      | false => simp only [offloader.replayWrites]; exact ih fs hall'
      | true =>
        simp only [offloader.replayWrites]
        rw [ih _ hall']
        have : ¬ p = hdfsx.keyPath w k := fun e => hall k v (List.mem_cons_self _ _) e.symm
        simp [hdfsx.Files.put, this]

theorem mem_firsts (k : GoString) (l : List GoString) : k ∈ offloader.firsts l ↔ k ∈ l := by
  induction l with
  | nil => simp [offloader.firsts]
  | cons a l ih =>
    simp only [offloader.firsts, List.mem_cons, List.mem_filter, ih, decide_eq_true_eq]
    constructor
    · rintro (h | ⟨h, _⟩)
      · exact Or.inl h
      · exact Or.inr h
    · rintro (h | h)
      · exact Or.inl h
      · by_cases e : k = a
        · exact Or.inl e
        · exact Or.inr ⟨h, e⟩

theorem firsts_nodup (l : List GoString) : (offloader.firsts l).Nodup := by
  induction l with
  | nil => simp [offloader.firsts]
  | cons a l ih =>
    simp only [offloader.firsts, List.nodup_cons, List.mem_filter, decide_eq_true_eq, ne_eq,
      not_true_eq_false, and_false, not_false_eq_true, true_and]
    exact ih.filter _

theorem flatMap_congr_mem {α β : Type} (l : List α) (f g : α → List β)
    (h : ∀ x ∈ l, f x = g x) : l.flatMap f = l.flatMap g := by
  induction l with
  | nil => rfl
  | cons a l ih =>
    simp only [List.flatMap_cons]
    rw [h a (List.mem_cons_self _ _), ih (fun x hx => h x (List.mem_cons_of_mem _ hx))]

theorem filter_ne_of_not (p : GoString → Bool) (k0 : GoString) (l : List GoString)
    (h : p k0 = false) :
    (l.filter (fun k' => decide (k' ≠ k0))).filter p = l.filter p := by
  rw [List.filter_filter]
  apply List.filter_congr
  intro x _
  by_cases e : x = k0
  · subst e; simp [h]
  · simp [e]

open offloader in
theorem sweep_all_ok {E : Type} (J : JSON E) (w : hdfsx.Writer) (cutoff forceCutoff : Int)
    (vs : List Visit) : ∀ s : RunState,
    (∀ v ∈ vs, v.getErr = none ∧ v.writeFileErr = false ∧ v.putErr = false ∧ v.delErr = false) →
    (sweep J w false cutoff forceCutoff s vs).ops = s.ops ++
      ((firsts (vs.map (fun v => v.key))).filter (isOld J cutoff s.redis)).flatMap
        (fun k => [Op.write k ((s.redis k).getD []) true, Op.del k true]) ∧
    (sweep J w false cutoff forceCutoff s vs).n.moved = s.n.moved +
      ((firsts (vs.map (fun v => v.key))).filter (isOld J cutoff s.redis)).length ∧
    (sweep J w false cutoff forceCutoff s vs).n.writeFail = s.n.writeFail ∧
    (sweep J w false cutoff forceCutoff s vs).n.scanned = s.n.scanned + vs.length := by
  induction vs with
  | nil => intro s _; simp [sweep, firsts]
  | cons v vs ih =>
    intro s hok
    have hv := hok v (List.mem_cons_self _ _)
    have hok' : ∀ v' ∈ vs, v'.getErr = none ∧ v'.writeFileErr = false ∧ v'.putErr = false ∧
        v'.delErr = false := fun v' hm => hok v' (List.mem_cons_of_mem _ hm)
    have hstep : sweep J w false cutoff forceCutoff s (v :: vs) =
        sweep J w false cutoff forceCutoff (visitKey J w false cutoff forceCutoff s v) vs := rfl
    rw [hstep]
    simp only [List.map_cons, firsts]
    cases hr : s.redis v.key with
    | none =>
      have hget : redisx.Get s.redis v.key v.getErr = .error "redis: nil" := by
        simp [redisx.Get, hv.1, hr]
      have hold : isOld J cutoff s.redis v.key = false := by simp [isOld, hr]
      rw [visitKey_get_error J w false cutoff forceCutoff s v _ hget]
      obtain ⟨h1, h2, h3, h4⟩ := ih { s with n := { s.n with scanned := s.n.scanned + 1 } } hok'
      simp only [List.filter_cons, hold, Bool.false_eq_true, if_false,
        filter_ne_of_not _ _ _ hold]
      refine ⟨h1, h2, h3, ?_⟩
      rw [h4]; simp; omega
    | some val =>
      have hget : redisx.Get s.redis v.key v.getErr = .ok val := by
        simp [redisx.Get, hv.1, hr]
      have hmv : shouldMove false (extractTS J val).2 (extractTS J val).1 cutoff forceCutoff =
          isOld J cutoff s.redis v.key := by
        simp [shouldMove, isOld, hr]
      obtain ⟨hsc, _, _, c⟩ := visitKey_cases J w false cutoff forceCutoff s v val hget
      rcases c with c | c | c | c
      · obtain ⟨hm, ho, hrd, _, hmo, hwf⟩ := c
        rw [hmv] at hm
        obtain ⟨h1, h2, h3, h4⟩ := ih (visitKey J w false cutoff forceCutoff s v) hok'
        rw [hrd] at h1 h2
        simp only [List.filter_cons, hm, Bool.false_eq_true, if_false,
          filter_ne_of_not _ _ _ hm]
        refine ⟨by rw [h1, ho], by rw [h2, hmo], by rw [h3, hwf], ?_⟩
        rw [h4, hsc]; simp; omega
      · exact absurd c.2.1 (by simp [hv.2.1, hv.2.2.1])
      · exact absurd c.2.2.2.1 (by simp [hv.2.2.2])
      · obtain ⟨hm, _, _, _, ho, hrd, _, hmo, hwf⟩ := c
        rw [hmv] at hm
        obtain ⟨h1, h2, h3, h4⟩ := ih (visitKey J w false cutoff forceCutoff s v) hok'
        rw [hrd] at h1 h2
        have hfilt : (firsts (vs.map (fun v => v.key))).filter
            (isOld J cutoff (s.redis.del v.key)) =
            ((firsts (vs.map (fun v => v.key))).filter (fun k' => decide (k' ≠ v.key))).filter
              (isOld J cutoff s.redis) := by
          rw [List.filter_filter]
          apply List.filter_congr
          intro x _
          by_cases e : x = v.key
          · subst e; simp [isOld, redisx.Keyspace.del]
          · simp [isOld, redisx.Keyspace.del, e]
        have hmap : (((firsts (vs.map (fun v => v.key))).filter
            (fun k' => decide (k' ≠ v.key))).filter (isOld J cutoff s.redis)).flatMap
              (fun k => [Op.write k (((s.redis.del v.key) k).getD []) true, Op.del k true]) =
            (((firsts (vs.map (fun v => v.key))).filter
            (fun k' => decide (k' ≠ v.key))).filter (isOld J cutoff s.redis)).flatMap
              (fun k => [Op.write k ((s.redis k).getD []) true, Op.del k true]) := by
          apply flatMap_congr_mem
          intro x hx
          have hne : x ≠ v.key := by
            have := (List.mem_filter.mp (List.mem_filter.mp hx).1).2
            simpa using this
          simp [redisx.Keyspace.del, hne]
        rw [hfilt] at h1 h2
        rw [hmap] at h1
        simp only [List.filter_cons, hm, if_true, List.flatMap_cons, List.length_cons]
        refine ⟨by rw [h1, ho, hr]; simp, by rw [h2, hmo]; omega, by rw [h3, hwf], ?_⟩
        rw [h4, hsc]; omega

open offloader in
/-- C5. Take a run with force mode off in which no call fails and `SCAN` returns every key
of the keyspace (a key may be returned more than once). Call a key old when its value
carries a timestamp before the age cutoff, and let `olds` be the old keys, each once, in
the order first visited. Then the run writes and deletes exactly the old keys (its
operations are, for each old key in turn, the successful write of its value and its
successful delete); afterwards every old key is gone from Redis and its value is the object
of the key in HDFS, every other key and every other file is untouched, `moved` is the
number of old keys and `writeFail` is 0. These counters are the ones the run logs whenever
it visited at least one key. -/
theorem offload_moves_exactly_old {E : Type} (J : JSON E) (w : hdfsx.Writer)
    (redis : redisx.Keyspace) (hdfs : hdfsx.Files) (env : RunEnv) (offloadAfterSec : Int)
    (forceMemRatio : ℚ) (forceMinAgeSec : Int)
    (hforce : env.memErr = true ∨ env.memRatio < forceMemRatio)
    (hstate : env.stateErr = false) (hscan : ∀ sh ∈ env.shards, sh.scanErr = false)
    (hok : ∀ v ∈ env.visits,
      v.getErr = none ∧ v.writeFileErr = false ∧ v.putErr = false ∧ v.delErr = false)
    (hcover : ∀ k, redis k ≠ none → k ∈ env.visits.map (fun v => v.key)) :
    ∀ r olds, r = doOffload J w redis hdfs env offloadAfterSec forceMemRatio forceMinAgeSec →
      olds = (firsts (env.visits.map (fun v => v.key))).filter
        (isOld J (cutoffOf env.now1 offloadAfterSec) redis) →
      olds.Nodup ∧
      (∀ k, k ∈ olds ↔ isOld J (cutoffOf env.now1 offloadAfterSec) redis k = true) ∧
      r.ops = olds.flatMap (fun k => [Op.write k ((redis k).getD []) true, Op.del k true]) ∧
      (∀ k, isOld J (cutoffOf env.now1 offloadAfterSec) redis k = true →
        r.redis k = none ∧ r.hdfs (hdfsx.keyPath w k) = redis k) ∧
      (∀ k, isOld J (cutoffOf env.now1 offloadAfterSec) redis k = false → r.redis k = redis k) ∧
      (∀ p, (∀ k, isOld J (cutoffOf env.now1 offloadAfterSec) redis k = true →
        p ≠ hdfsx.keyPath w k) → r.hdfs p = hdfs p) ∧
      r.n.moved = olds.length ∧ r.n.writeFail = 0 ∧
      (env.visits ≠ [] → r.report = some r.n) := by
  intro r olds hrdef holds
  have hf : (!env.memErr && decide (forceMemRatio ≤ env.memRatio)) = false := by
    rcases hforce with h | h
    · simp [h]
    · simp [not_le.mpr h]
  obtain ⟨hr, hh, hn, ho⟩ := doOffload_eq_sweep J w redis hdfs env offloadAfterSec forceMemRatio
    forceMinAgeSec
  have inv := runInv_sweep J w (!env.memErr && decide (forceMemRatio ≤ env.memRatio))
    (cutoffOf env.now1 offloadAfterSec) (cutoffOf env.now2 forceMinAgeSec) redis hdfs env.visits
    _ (runInv_init w redis hdfs)
  rw [hf] at hr hh hn ho inv
  obtain ⟨a1, a2, a3, a4⟩ := sweep_all_ok J w (cutoffOf env.now1 offloadAfterSec)
    (cutoffOf env.now2 forceMinAgeSec) env.visits
    { redis := redis, hdfs := hdfs, n := ⟨0, 0, 0, 0, 0⟩, ops := [] } hok
  simp only [List.nil_append, Nat.zero_add] at a1 a2 a3 a4
  rw [← holds] at a1 a2
  have hops : r.ops =
      olds.flatMap (fun k => [Op.write k ((redis k).getD []) true, Op.del k true]) := by
    rw [hrdef, ho, a1]
  have hmem_old : ∀ k, k ∈ olds ↔ isOld J (cutoffOf env.now1 offloadAfterSec) redis k = true := by
    intro k
    rw [holds, List.mem_filter]
    constructor
    · exact fun h => h.2
    · intro h
      refine ⟨(mem_firsts k _).mpr (hcover k ?_), h⟩
      intro hnone
      simp [isOld, hnone] at h
  have hdel : ∀ k, Op.del k true ∈ (sweep J w false (cutoffOf env.now1 offloadAfterSec)
      (cutoffOf env.now2 forceMinAgeSec)
      { redis := redis, hdfs := hdfs, n := ⟨0, 0, 0, 0, 0⟩, ops := [] } env.visits).ops ↔
      k ∈ olds := by
    intro k
    rw [a1]
    simp [List.mem_flatMap]
  have hwr : ∀ k v, Op.write k v true ∈ (sweep J w false (cutoffOf env.now1 offloadAfterSec)
      (cutoffOf env.now2 forceMinAgeSec)
      { redis := redis, hdfs := hdfs, n := ⟨0, 0, 0, 0, 0⟩, ops := [] } env.visits).ops ↔
      (k ∈ olds ∧ v = (redis k).getD []) := by
    intro k v
    rw [a1]
    simp only [List.mem_flatMap, List.mem_cons, Op.write.injEq, and_true, reduceCtorEq,
      List.mem_singleton, or_false, List.not_mem_nil]
    constructor
    · rintro ⟨k', hk', rfl, rfl⟩; exact ⟨hk', rfl⟩
    · rintro ⟨hk, rfl⟩; exact ⟨k, hk, rfl, rfl⟩
  refine ⟨by rw [holds]; exact (firsts_nodup _).filter _, hmem_old, hops, ?_, ?_, ?_, ?_, ?_, ?_⟩
  · intro k hk
    have hko := (hmem_old k).mpr hk
    obtain ⟨val, hval⟩ : ∃ val, redis k = some val := by
      cases h : redis k with
      | none => simp [isOld, h] at hk
      | some val => exact ⟨val, rfl⟩
    refine ⟨?_, ?_⟩
    · rw [hrdef, hr, inv.redis_eq k, if_pos ((hdel k).mpr hko)]
    · rw [hrdef, hh, inv.hdfs_eq, hval]
      apply replayWrites_hit
      · intro k' v' hm hp
        have hk' := keyPath_injective w k' k hp
        subst hk'
        rw [((hwr k' v').mp hm).2, hval]; rfl
      · right
        refine ⟨k, (hwr k val).mpr ⟨hko, ?_⟩, rfl⟩
        rw [hval]; rfl
  · intro k hk
    have hko : k ∉ olds := by
      rw [hmem_old k, hk]; simp
    rw [hrdef, hr, inv.redis_eq k, if_neg (fun h => hko ((hdel k).mp h))]
  · intro p hp
    rw [hrdef, hh, inv.hdfs_eq]
    apply replayWrites_miss
    intro k v hm e
    exact hp k ((hmem_old k).mp ((hwr k v).mp hm).1) e.symm
  · rw [hrdef, hn, a2]
  · rw [hrdef, hn, a3]
  · intro hne
    rw [hrdef]
    apply doOffload_report J w redis hdfs env offloadAfterSec forceMemRatio forceMinAgeSec hstate
      hscan
    rw [hn, a4]
    exact List.length_pos.mpr hne

theorem seedLoop_other {E : Type} (J : JSON E) (ts : Int) (setFails : Nat → Bool)
    (k : GoString) (n : Nat) : ∀ (i : Nat) (ks : redisx.Keyspace),
    (∀ j, i ≤ j → j < i + n → k ≠ ingestor.seedKey j) →
    ingestor.seedLoop J ts setFails n i ks k = ks k := by
  induction n with
  | zero => intro i ks _; rfl
  | succ n ih =>
    intro i ks h
    simp only [ingestor.seedLoop]
    rw [ih (i + 1) _ (fun j h1 h2 => h j (by omega) (by omega))]
    have hk : k ≠ ingestor.seedKey i := h i (le_refl _) (by omega)
    cases setFails i <;> simp [redisx.Keyspace.set, hk]

theorem demo_seeded_cover (k : GoString) (h : demo.seeded k ≠ none) :
    k ∈ demo.runEnv.visits.map (fun v => v.key) := by
  have hkeys : demo.runEnv.visits.map (fun v => v.key) = (List.range 20).map ingestor.seedKey := by
    decide
  rw [hkeys]
  by_contra hk
  apply h
  have : demo.seeded k = (fun _ => none : redisx.Keyspace) k := by
    apply seedLoop_other
    intro j _ hj e
    apply hk
    rw [e]
    exact List.mem_map_of_mem _ (List.mem_range.mpr (by
      have : ingestor.seedCount [] = 20 := by decide
      omega))
  rw [this]

open offloader in
/-- Witness of C5: the 20 records of the seed handler, swept 150 seconds later with an age
cutoff of 60 seconds, give `moved = 20` and `write_fail = 0`, and the run line is logged. -/
theorem offload_moves_exactly_old_witness :
    (demo.runEnv.memErr = true ∨ demo.runEnv.memRatio < 7 / 10) ∧
    demo.runEnv.stateErr = false ∧ (∀ sh ∈ demo.runEnv.shards, sh.scanErr = false) ∧
    (∀ v ∈ demo.runEnv.visits,
      v.getErr = none ∧ v.writeFileErr = false ∧ v.putErr = false ∧ v.delErr = false) ∧
    (∀ k, demo.seeded k ≠ none → k ∈ demo.runEnv.visits.map (fun v => v.key)) ∧
    (ingestor.seedOldKeysHandler json.flat (fun _ => none) 1700000000 (fun _ => false) []).1 = 20 ∧
    (doOffload json.flat demo.writer demo.seeded (fun _ => none) demo.runEnv 60 (7 / 10) 5).n.moved
      = 20 ∧
    (doOffload json.flat demo.writer demo.seeded (fun _ => none) demo.runEnv 60 (7 / 10)
      5).n.writeFail = 0 ∧
    (doOffload json.flat demo.writer demo.seeded (fun _ => none) demo.runEnv 60 (7 / 10) 5).report
      = some (doOffload json.flat demo.writer demo.seeded (fun _ => none) demo.runEnv 60 (7 / 10)
        5).n := by
  have hforce : demo.runEnv.memErr = true ∨ demo.runEnv.memRatio < 7 / 10 :=
    Or.inr (by norm_num [demo.runEnv])
  have hok : ∀ v ∈ demo.runEnv.visits,
      v.getErr = none ∧ v.writeFileErr = false ∧ v.putErr = false ∧ v.delErr = false := by
    decide
  have hscan : ∀ sh ∈ demo.runEnv.shards, sh.scanErr = false := by decide
  have hlen : ((firsts (demo.runEnv.visits.map (fun v => v.key))).filter
      (isOld json.flat (cutoffOf demo.runEnv.now1 60) demo.seeded)).length = 20 := by
    decide
  have h := offload_moves_exactly_old json.flat demo.writer demo.seeded (fun _ => none)
    demo.runEnv 60 (7 / 10) 5 hforce rfl hscan hok demo_seeded_cover _ _ rfl rfl
  exact ⟨hforce, rfl, hscan, hok, demo_seeded_cover, by decide,
    h.2.2.2.2.2.2.1.trans hlen, h.2.2.2.2.2.2.2.1, h.2.2.2.2.2.2.2.2 (by decide)⟩

/-! ## Round trips -/

theorem lookup_none_of_sublist {α β : Type} [BEq α] (k : α) (l₁ l₂ : List (α × β))
    (h : l₁.Sublist l₂) (hn : l₂.lookup k = none) : l₁.lookup k = none := by
  induction h with
  | slnil => rfl
  | @cons l₁ l₂ a _ ih =>
    obtain ⟨x, y⟩ := a
    rw [List.lookup_cons] at hn
    cases hb : k == x with
    | true => rw [hb] at hn; exact absurd hn (by simp)
    | false => rw [hb] at hn; exact ih hn
  | @cons₂ l₁ l₂ a _ ih =>
    obtain ⟨x, y⟩ := a
    rw [List.lookup_cons] at hn
    rw [List.lookup_cons]
    cases hb : k == x with
    | true => rw [hb] at hn; exact absurd hn (by simp)
    | false => rw [hb] at hn; exact ih hn

theorem valKey_ne (key : GoString) : ingestor.valKey key ≠ key := by
  intro h
  have := congrArg List.length h
  simp [ingestor.valKey, ascii] at this
  omega

theorem lru_Add_lookup_other (c : lru.Cache) (k v k' : GoString) (hne : k' ≠ k)
    (hn : c.items.lookup k' = none) : (c.Add k v).items.lookup k' = none := by
  have hb : (k' == k) = false := by simpa using hne
  unfold lru.Cache.Add
  cases c.items.lookup k with
  | some _ =>
    simp only [List.lookup_cons, hb]
    exact lookup_none_of_sublist k' _ _ (List.filter_sublist _) hn
  | none =>
    simp only
    split
    · apply lookup_none_of_sublist k' _ _ (List.dropLast_sublist _)
      simp only [List.lookup_cons, hb]
      exact hn
    · simp only [List.lookup_cons, hb]
      exact hn

open ingestor in
theorem ingest_fast_path (J : JSON Event) (w : hdfsx.Writer) (soft : ℚ) (st : State)
    (env : IngestEnv) (ev : Event) (value : Payload) (b : GoString) (hkey : ev.Key ≠ [])
    (hval : ev.Value = some value) (hr : env.ratio < soft)
    (hm : J.Marshal (value.set (ascii "_ts") (GoAny.int64 env.now)) = .ok b)
    (hs : env.setErr = none) :
    ingestHandler J w soft st env (some ev) =
      ({ status := 200, ok := true, stored := some "redis", error := none,
         mem_ratio := some env.ratio },
       { cache :=
           if (st.cache.Enabled && decide (ev.CacheHint = ascii "hot_read")) = true then
             { st.cache with LRU := st.cache.LRU.Add ev.Key (ascii "cached") }
           else st.cache,
         redis := st.redis.set ev.Key b, hdfs := st.hdfs },
       (if (st.cache.Enabled && decide (ev.CacheHint = ascii "hot_read")) = true then
          [Call.cacheAdd ev.Key (ascii "cached")] else []) ++
         [Call.redisSet ev.Key b
           (wrapInt64 ((if ev.TTLSeconds ≤ 0 then 3600 else ev.TTLSeconds) * 1000000000))]) := by
  have hr' : ¬ soft ≤ env.ratio := not_le.mpr hr
  simp only [ingestHandler, hval, hkey, hr', hm, hs, if_false]
  split <;> split <;> simp_all

open ingestor in
theorem ingest_cold_path (J : JSON Event) (w : hdfsx.Writer) (soft : ℚ) (st : State)
    (env : IngestEnv) (ev : Event) (hkey : ev.Key ≠ []) (hval : ev.Value ≠ none)
    (hr : soft ≤ env.ratio) :
    ingestHandler J w soft st env (some ev) =
      ({ status := 200, ok := true, stored := some "hdfs", error := none,
         mem_ratio := some env.ratio },
       { cache :=
           if (st.cache.Enabled && decide (ev.CacheHint = ascii "hot_read")) = true then
             { st.cache with LRU := st.cache.LRU.Add ev.Key (ascii "cached") }
           else st.cache,
         redis := st.redis,
         hdfs := (hdfsx.WriteJSONL w J st.hdfs
           [if ev.TTLSeconds ≤ 0 then { ev with TTLSeconds := 3600 } else ev] env.jsonl).1 },
       (if (st.cache.Enabled && decide (ev.CacheHint = ascii "hot_read")) = true then
          [Call.cacheAdd ev.Key (ascii "cached")] else []) ++
         [Call.writeJSONL [if ev.TTLSeconds ≤ 0 then { ev with TTLSeconds := 3600 } else ev]]) := by
  obtain ⟨value, hv⟩ := Option.ne_none_iff_exists'.mp hval
  simp only [ingestHandler, hv, hkey, hr, if_false, if_true]
  split <;> split <;> simp_all

open ingestor in
theorem get_redis_hit (w : hdfsx.Writer) (st : State) (env : GetEnv) (key val : GoString)
    (hk : key ≠ [])
    (hmiss : st.cache.Enabled = false ∨ st.cache.LRU.items.lookup (valKey key) = none)
    (hget : redisx.Get st.redis key env.getErr = .ok val) :
    (getHandler w st env (47 :: key)).1 =
      { status := 200, ok := true, source := some "redis", value := some val, error := none } := by
  have hnone : (if st.cache.Enabled = true then st.cache.LRU.Get (valKey key)
      else (none, st.cache.LRU)).1 = none := by
    rcases hmiss with h | h
    · simp [h]
    · split
      · rw [lru_Get_fst, h]
      · rfl
  simp only [getHandler, requestKey_slash, hk, if_false, hnone, hget]
  cases st.cache.Enabled <;> simp

open ingestor in
theorem get_redis_miss (w : hdfsx.Writer) (st : State) (env : GetEnv) (key : GoString)
    (e : String) (hk : key ≠ [])
    (hmiss : st.cache.Enabled = false ∨ st.cache.LRU.items.lookup (valKey key) = none)
    (hget : redisx.Get st.redis key env.getErr = .error e) :
    (getHandler w st env (47 :: key)).1 =
      match hdfsx.ReadByKey w st.hdfs key env.catErr with
      | some buf =>
        { status := 200, ok := true, source := some "hdfs", value := some buf, error := none }
      | none =>
        { status := 404, ok := false, source := none, value := none, error := some e } := by
  have hnone : (if st.cache.Enabled = true then st.cache.LRU.Get (valKey key)
      else (none, st.cache.LRU)).1 = none := by
    rcases hmiss with h | h
    · simp [h]
    · split
      · rw [lru_Get_fst, h]
      · rfl
  simp only [getHandler, requestKey_slash, hk, if_false, hnone, hget]
  cases hdfsx.ReadByKey w st.hdfs key env.catErr <;> rfl

open ingestor in
theorem ingest_stored_redis (J : JSON Event) (w : hdfsx.Writer) (soft : ℚ) (st : State)
    (env : IngestEnv) (ev : Event) (value : Payload) (hval : ev.Value = some value)
    (h : (ingestHandler J w soft st env (some ev)).1.stored = some "redis") :
    ev.Key ≠ [] ∧ env.ratio < soft ∧ env.setErr = none ∧
    ∃ b, J.Marshal (value.set (ascii "_ts") (GoAny.int64 env.now)) = .ok b := by
  by_cases hk : ev.Key = []
  · simp [ingestHandler, hval, hk, invalidEvent] at h
  · simp only [ingestHandler, hval, hk, if_false] at h
    by_cases hr : soft ≤ env.ratio
    · simp [hr] at h
    · simp only [hr, if_false] at h
      cases hm : J.Marshal (value.set (ascii "_ts") (GoAny.int64 env.now)) with
      | error e => simp [hm] at h
      | ok b =>
        cases hs : env.setErr with
        | some e => simp [hm, hs] at h
        | none => exact ⟨hk, not_le.mp hr, rfl, b, rfl⟩

open ingestor in
/-- C7, amended. If a key is ingested while the ratio is below the soft threshold, the
stamped value is serialized to `b` and `r.Set` returns no error, then the request is
answered `stored = "redis"`, and a retrieval of the key right after that misses the local
cache (the cache is disabled or holds nothing under `VAL:<key>`) and whose Redis call does
not fail answers `source = "redis"` with the value `b`: the serialization of the value with
its `_ts` entry set to the ingestion time. -/
theorem ingest_get_roundtrip_fast (J : JSON Event) (w : hdfsx.Writer) (soft : ℚ) (st : State)
    (envI : IngestEnv) (envG : GetEnv) (ev : Event) (value : Payload) (b : GoString)
    (hkey : ev.Key ≠ []) (hval : ev.Value = some value) (hr : envI.ratio < soft)
    (hm : J.Marshal (value.set (ascii "_ts") (GoAny.int64 envI.now)) = .ok b)
    (hs : envI.setErr = none)
    (hmiss : st.cache.Enabled = false ∨ st.cache.LRU.items.lookup (valKey ev.Key) = none)
    (hget : envG.getErr = none) :
    (ingestHandler J w soft st envI (some ev)).1.stored = some "redis" ∧
    (getHandler w (ingestHandler J w soft st envI (some ev)).2.1 envG (47 :: ev.Key)).1 =
      { status := 200, ok := true, source := some "redis", value := some b, error := none } := by
  rw [ingest_fast_path J w soft st envI ev value b hkey hval hr hm hs]
  refine ⟨rfl, ?_⟩
  apply get_redis_hit
  · exact hkey
  · rcases hmiss with h | h
    · left
      simp only
      split <;> exact h
    · right
      simp only
      split
      · exact lru_Add_lookup_other _ _ _ _ (valKey_ne ev.Key) h
      · exact h
  · simp [redisx.Get, hget, redisx.Keyspace.set]

open ingestor in
/-- Witness of C7 (amended): the sample event on a fresh ingestor. -/
theorem ingest_get_roundtrip_fast_witness :
    demo.event.Key ≠ [] ∧ demo.env.ratio < 4 / 5 ∧ demo.env.setErr = none ∧
    (getHandler demo.writer
        (ingestHandler json.flat demo.writer (4 / 5) demo.state demo.env (some demo.event)).2.1
        demo.getEnv (47 :: demo.event.Key)).1 =
      { status := 200, ok := true, source := some "redis",
        value := some (ascii "\x7b\"_ts\":1700000000,\"a\":1\x7d"), error := none } :=
  ⟨by decide, by norm_num [demo.env], rfl,
   (ingest_get_roundtrip_fast json.flat demo.writer (4 / 5) demo.state demo.env demo.getEnv
      demo.event [(ascii "a", GoAny.float64 1)] (ascii "\x7b\"_ts\":1700000000,\"a\":1\x7d")
      (by decide) rfl (by norm_num [demo.env]) (by rfl) rfl (Or.inr (by decide)) rfl).2⟩

open ingestor in
/-- Counterexample to C7 as stated. (1) With a value cached earlier under `VAL:user:1`, the
retrieval that follows a successful ingestion of `user:1` into Redis answers from the local
cache, with the old value. (2) On a fresh ingestor, a value whose only entry is `_ts` with
the string `mine` is ingested into Redis, and the retrieval that follows returns an object
whose only entry is `_ts` with the number 1700000000: the stored payload is the value
stamped with the ingestion time, which here replaces the `_ts` entry of the value. -/
theorem stale_cache_or_stamp_counterexample :
    ((ingestHandler json.flat demo.writer (4 / 5) demo.stale demo.env (some demo.event)).1.stored
        = some "redis" ∧
     (getHandler demo.writer
        (ingestHandler json.flat demo.writer (4 / 5) demo.stale demo.env (some demo.event)).2.1
        demo.getEnv (47 :: demo.event.Key)).1 =
      { status := 200, ok := true, source := some "local_cache", value := some (ascii "old"),
        error := none }) ∧
    ((ingestHandler json.flat demo.writer (4 / 5) demo.state demo.env (some demo.stamped)).1.stored
        = some "redis" ∧
     demo.stamped.Value = some [(ascii "_ts", GoAny.string (ascii "mine"))] ∧
     json.flat.Marshal [(ascii "_ts", GoAny.string (ascii "mine"))]
        = .ok (ascii "\x7b\"_ts\":\"mine\"\x7d") ∧
     (getHandler demo.writer
        (ingestHandler json.flat demo.writer (4 / 5) demo.state demo.env (some demo.stamped)).2.1
        demo.getEnv (47 :: demo.stamped.Key)).1 =
      { status := 200, ok := true, source := some "redis",
        value := some (ascii "\x7b\"_ts\":1700000000\x7d"), error := none }) := by
  have hr : demo.env.ratio < 4 / 5 := by norm_num [demo.env]
  rw [ingest_fast_path json.flat demo.writer (4 / 5) demo.stale demo.env demo.event
      [(ascii "a", GoAny.float64 1)] (ascii "\x7b\"_ts\":1700000000,\"a\":1\x7d")
      (by decide) rfl hr (by rfl) rfl,
    ingest_fast_path json.flat demo.writer (4 / 5) demo.state demo.env demo.stamped
      [(ascii "_ts", GoAny.string (ascii "mine"))] (ascii "\x7b\"_ts\":1700000000\x7d")
      (by decide) rfl hr (by rfl) rfl]
  refine ⟨⟨rfl, by decide⟩, rfl, rfl, by rfl, by decide⟩

open offloader in
theorem offload_then_get {E : Type} (J : JSON E) (w : hdfsx.Writer) (redis : redisx.Keyspace)
    (hdfs : hdfsx.Files) (env : RunEnv) (offloadAfterSec : Int) (forceMemRatio : ℚ)
    (forceMinAgeSec : Int) (key : GoString) (hk : key ≠ [])
    (hmoved : Op.del key true ∈
      (doOffload J w redis hdfs env offloadAfterSec forceMemRatio forceMinAgeSec).ops)
    (cache : cachex.Cache)
    (hmiss : cache.Enabled = false ∨ cache.LRU.items.lookup (ingestor.valKey key) = none)
    (envG : ingestor.GetEnv) (hcat : envG.catErr = false) :
    ∃ v, redis key = some v ∧
      (doOffload J w redis hdfs env offloadAfterSec forceMemRatio forceMinAgeSec).redis key
        = none ∧
      hdfsx.ReadByKey w
        (doOffload J w redis hdfs env offloadAfterSec forceMemRatio forceMinAgeSec).hdfs key
        false = some v ∧
      (ingestor.getHandler w
        { cache := cache,
          redis := (doOffload J w redis hdfs env offloadAfterSec forceMemRatio
            forceMinAgeSec).redis,
          hdfs := (doOffload J w redis hdfs env offloadAfterSec forceMemRatio
            forceMinAgeSec).hdfs }
        envG (47 :: key)).1 =
        { status := 200, ok := true, source := some "hdfs", value := some v, error := none } := by
  obtain ⟨hr, hh, _, ho⟩ := doOffload_eq_sweep J w redis hdfs env offloadAfterSec forceMemRatio
    forceMinAgeSec
  have inv := runInv_sweep J w (!env.memErr && decide (forceMemRatio ≤ env.memRatio))
    (cutoffOf env.now1 offloadAfterSec) (cutoffOf env.now2 forceMinAgeSec) redis hdfs env.visits
    _ (runInv_init w redis hdfs)
  rw [ho] at hmoved
  obtain ⟨pre, post, hsplit⟩ := List.append_of_mem hmoved
  obtain ⟨pre', v, hp⟩ := inv.del_after_write pre post key true hsplit
  have hw : Op.write key v true ∈ (sweep J w (!env.memErr && decide (forceMemRatio ≤ env.memRatio))
      (cutoffOf env.now1 offloadAfterSec) (cutoffOf env.now2 forceMinAgeSec)
      { redis := redis, hdfs := hdfs, n := ⟨0, 0, 0, 0, 0⟩, ops := [] } env.visits).ops := by
    rw [hsplit, hp]; simp
  have hv : redis key = some v := inv.write_val key v true hw
  have hgone : (doOffload J w redis hdfs env offloadAfterSec forceMemRatio forceMinAgeSec).redis
      key = none := by
    rw [hr, inv.redis_eq key, if_pos hmoved]
  have hfile : (doOffload J w redis hdfs env offloadAfterSec forceMemRatio forceMinAgeSec).hdfs
      (hdfsx.keyPath w key) = some v := by
    rw [hh, inv.hdfs_eq]
    apply replayWrites_hit
    · intro k' v' hm hpath
      have hk' := keyPath_injective w k' key hpath
      subst hk'
      have := inv.write_val k' v' true hm
      rw [hv] at this
      exact (Option.some.inj this).symm
    · exact Or.inr ⟨key, hw, rfl⟩
  have hread : hdfsx.ReadByKey w
      (doOffload J w redis hdfs env offloadAfterSec forceMemRatio forceMinAgeSec).hdfs key
      false = some v := by
    simp [hdfsx.ReadByKey, hfile]
  refine ⟨v, hv, hgone, hread, ?_⟩
  have hget : ∃ e, redisx.Get
      (doOffload J w redis hdfs env offloadAfterSec forceMemRatio forceMinAgeSec).redis key
      envG.getErr = .error e := by
    unfold redisx.Get
    cases envG.getErr with
    | some e => exact ⟨e, rfl⟩
    | none => exact ⟨"redis: nil", by simp [hgone]⟩
  obtain ⟨e, hget⟩ := hget
  rw [get_redis_miss w _ envG key e hk hmiss hget]
  simp only [hcat, hread]

open ingestor offloader in
/-- C8, amended. Let a key be ingested into Redis (ratio below the soft threshold, stamped
value serialized to `b`, `r.Set` without error), and let a run of `doOffload` on the
resulting tiers move the key (its operations contain the successful delete of the key).
Then the run wrote `b` for the key, `ReadByKey` returns `b`, and a retrieval of the key that
misses the local cache, with a working `hdfs dfs -cat`, answers `source = "hdfs"` with the
value `b`: the raw value Redis held, which is the serialization of the value with its `_ts`
entry set to the ingestion time. -/
theorem ingest_offload_get_roundtrip (J : JSON Event) (w : hdfsx.Writer) (soft : ℚ)
    (st : State) (envI : IngestEnv) (ev : Event) (value : Payload) (b : GoString)
    (hkey : ev.Key ≠ []) (hval : ev.Value = some value) (hr : envI.ratio < soft)
    (hm : J.Marshal (value.set (ascii "_ts") (GoAny.int64 envI.now)) = .ok b)
    (hs : envI.setErr = none)
    (env : RunEnv) (offloadAfterSec : Int) (forceMemRatio : ℚ) (forceMinAgeSec : Int)
    (hmoved : Op.del ev.Key true ∈
      (doOffload J w (ingestHandler J w soft st envI (some ev)).2.1.redis
        (ingestHandler J w soft st envI (some ev)).2.1.hdfs env offloadAfterSec forceMemRatio
        forceMinAgeSec).ops)
    (cache : cachex.Cache)
    (hmiss : cache.Enabled = false ∨ cache.LRU.items.lookup (valKey ev.Key) = none)
    (envG : GetEnv) (hcat : envG.catErr = false) :
    (ingestHandler J w soft st envI (some ev)).2.1.redis ev.Key = some b ∧
    Op.write ev.Key b true ∈
      (doOffload J w (ingestHandler J w soft st envI (some ev)).2.1.redis
        (ingestHandler J w soft st envI (some ev)).2.1.hdfs env offloadAfterSec forceMemRatio
        forceMinAgeSec).ops ∧
    hdfsx.ReadByKey w
      (doOffload J w (ingestHandler J w soft st envI (some ev)).2.1.redis
        (ingestHandler J w soft st envI (some ev)).2.1.hdfs env offloadAfterSec forceMemRatio
        forceMinAgeSec).hdfs ev.Key false = some b ∧
    (getHandler w
      { cache := cache,
        redis := (doOffload J w (ingestHandler J w soft st envI (some ev)).2.1.redis
          (ingestHandler J w soft st envI (some ev)).2.1.hdfs env offloadAfterSec forceMemRatio
          forceMinAgeSec).redis,
        hdfs := (doOffload J w (ingestHandler J w soft st envI (some ev)).2.1.redis
          (ingestHandler J w soft st envI (some ev)).2.1.hdfs env offloadAfterSec forceMemRatio
          forceMinAgeSec).hdfs }
      envG (47 :: ev.Key)).1 =
      { status := 200, ok := true, source := some "hdfs", value := some b, error := none } := by
  have hstored : (ingestHandler J w soft st envI (some ev)).2.1.redis ev.Key = some b := by
    rw [ingest_fast_path J w soft st envI ev value b hkey hval hr hm hs]
    simp [redisx.Keyspace.set]
  obtain ⟨v, hv, _, hread, hresp⟩ := offload_then_get J w _ _ env offloadAfterSec forceMemRatio
    forceMinAgeSec ev.Key hkey hmoved cache hmiss envG hcat
  rw [hstored] at hv
  have hvb : v = b := (Option.some.inj hv).symm
  subst hvb
  refine ⟨hstored, ?_, hread, hresp⟩
  obtain ⟨_, _, _, ho⟩ := doOffload_eq_sweep J w (ingestHandler J w soft st envI (some ev)).2.1.redis
    (ingestHandler J w soft st envI (some ev)).2.1.hdfs env offloadAfterSec forceMemRatio
    forceMinAgeSec
  have inv := runInv_sweep J w (!env.memErr && decide (forceMemRatio ≤ env.memRatio))
    (cutoffOf env.now1 offloadAfterSec) (cutoffOf env.now2 forceMinAgeSec)
    (ingestHandler J w soft st envI (some ev)).2.1.redis
    (ingestHandler J w soft st envI (some ev)).2.1.hdfs env.visits
    _ (runInv_init w _ _)
  rw [ho] at hmoved ⊢
  obtain ⟨pre, post, hsplit⟩ := List.append_of_mem hmoved
  obtain ⟨pre', v', hp⟩ := inv.del_after_write pre post ev.Key true hsplit
  have hw : Op.write ev.Key v' true ∈ (sweep J w
      (!env.memErr && decide (forceMemRatio ≤ env.memRatio))
      (cutoffOf env.now1 offloadAfterSec) (cutoffOf env.now2 forceMinAgeSec)
      { redis := (ingestHandler J w soft st envI (some ev)).2.1.redis,
        hdfs := (ingestHandler J w soft st envI (some ev)).2.1.hdfs,
        n := ⟨0, 0, 0, 0, 0⟩, ops := [] } env.visits).ops := by
    rw [hsplit, hp]; simp
  have hv' := inv.write_val ev.Key v' true hw
  rw [hstored] at hv'
  rw [Option.some.inj hv']
  exact hw

open ingestor offloader in
theorem demo_sweep_moves :
    (ingestHandler json.flat demo.writer (4 / 5) demo.state demo.env
      (some demo.stamped)).2.1.redis demo.stamped.Key = some (ascii "\x7b\"_ts\":1700000000\x7d") ∧
    Op.del demo.stamped.Key true ∈
      (doOffload json.flat demo.writer
        (ingestHandler json.flat demo.writer (4 / 5) demo.state demo.env
          (some demo.stamped)).2.1.redis
        (ingestHandler json.flat demo.writer (4 / 5) demo.state demo.env
          (some demo.stamped)).2.1.hdfs demo.sweepEnv 600 (7 / 10) 5).ops := by
  have hr : demo.env.ratio < 4 / 5 := by norm_num [demo.env]
  have hf : (!demo.sweepEnv.memErr && decide ((7 / 10 : ℚ) ≤ demo.sweepEnv.memRatio)) = false := by
    norm_num [demo.sweepEnv]
  rw [(doOffload_eq_sweep json.flat demo.writer _ _ demo.sweepEnv 600 (7 / 10) 5).2.2.2, hf,
    ingest_fast_path json.flat demo.writer (4 / 5) demo.state demo.env demo.stamped
      [(ascii "_ts", GoAny.string (ascii "mine"))] (ascii "\x7b\"_ts\":1700000000\x7d")
      (by decide) rfl hr (by rfl) rfl]
  exact ⟨by decide, by decide⟩

open ingestor offloader in
/-- Witness of C8 (amended): the key `user:2`, ingested on a fresh ingestor and swept 700
seconds later with an age cutoff of 600 seconds. -/
theorem ingest_offload_get_roundtrip_witness :
    demo.stamped.Key ≠ [] ∧ demo.env.ratio < 4 / 5 ∧ demo.env.setErr = none ∧
    Op.del demo.stamped.Key true ∈
      (doOffload json.flat demo.writer
        (ingestHandler json.flat demo.writer (4 / 5) demo.state demo.env
          (some demo.stamped)).2.1.redis
        (ingestHandler json.flat demo.writer (4 / 5) demo.state demo.env
          (some demo.stamped)).2.1.hdfs demo.sweepEnv 600 (7 / 10) 5).ops ∧
    (getHandler demo.writer
      { cache := demo.state.cache,
        redis := (doOffload json.flat demo.writer
          (ingestHandler json.flat demo.writer (4 / 5) demo.state demo.env
            (some demo.stamped)).2.1.redis
          (ingestHandler json.flat demo.writer (4 / 5) demo.state demo.env
            (some demo.stamped)).2.1.hdfs demo.sweepEnv 600 (7 / 10) 5).redis,
        hdfs := (doOffload json.flat demo.writer
          (ingestHandler json.flat demo.writer (4 / 5) demo.state demo.env
            (some demo.stamped)).2.1.redis
          (ingestHandler json.flat demo.writer (4 / 5) demo.state demo.env
            (some demo.stamped)).2.1.hdfs demo.sweepEnv 600 (7 / 10) 5).hdfs }
      demo.getEnv (47 :: demo.stamped.Key)).1 =
      { status := 200, ok := true, source := some "hdfs",
        value := some (ascii "\x7b\"_ts\":1700000000\x7d"), error := none } :=
  ⟨by decide, by norm_num [demo.env], rfl, demo_sweep_moves.2,
   (ingest_offload_get_roundtrip json.flat demo.writer (4 / 5) demo.state demo.env demo.stamped
      [(ascii "_ts", GoAny.string (ascii "mine"))] (ascii "\x7b\"_ts\":1700000000\x7d")
      (by decide) rfl (by norm_num [demo.env]) (by rfl) rfl demo.sweepEnv 600 (7 / 10) 5
      demo_sweep_moves.2 demo.state.cache (Or.inr (by decide)) demo.getEnv rfl).2.2.2⟩

open ingestor offloader in
/-- Counterexample to C8 as stated: a value whose only entry is `_ts` with the string
`mine` is ingested under `user:2` into Redis; a run moves the key; the retrieval that
follows, missing the local cache, answers from HDFS an object whose only entry is `_ts`
with the number 1700000000. The value read back is the stamped payload, not the value
ingested. -/
theorem swept_value_is_stamped_counterexample :
    (ingestHandler json.flat demo.writer (4 / 5) demo.state demo.env (some demo.stamped)).1.stored
      = some "redis" ∧
    demo.stamped.Value = some [(ascii "_ts", GoAny.string (ascii "mine"))] ∧
    json.flat.Marshal [(ascii "_ts", GoAny.string (ascii "mine"))]
      = .ok (ascii "\x7b\"_ts\":\"mine\"\x7d") ∧
    Op.del demo.stamped.Key true ∈
      (doOffload json.flat demo.writer
        (ingestHandler json.flat demo.writer (4 / 5) demo.state demo.env
          (some demo.stamped)).2.1.redis
        (ingestHandler json.flat demo.writer (4 / 5) demo.state demo.env
          (some demo.stamped)).2.1.hdfs demo.sweepEnv 600 (7 / 10) 5).ops ∧
    (getHandler demo.writer
      { cache := demo.state.cache,
        redis := (doOffload json.flat demo.writer
          (ingestHandler json.flat demo.writer (4 / 5) demo.state demo.env
            (some demo.stamped)).2.1.redis
          (ingestHandler json.flat demo.writer (4 / 5) demo.state demo.env
            (some demo.stamped)).2.1.hdfs demo.sweepEnv 600 (7 / 10) 5).redis,
        hdfs := (doOffload json.flat demo.writer
          (ingestHandler json.flat demo.writer (4 / 5) demo.state demo.env
            (some demo.stamped)).2.1.redis
          (ingestHandler json.flat demo.writer (4 / 5) demo.state demo.env
            (some demo.stamped)).2.1.hdfs demo.sweepEnv 600 (7 / 10) 5).hdfs }
      demo.getEnv (47 :: demo.stamped.Key)).1 =
      { status := 200, ok := true, source := some "hdfs",
        value := some (ascii "\x7b\"_ts\":1700000000\x7d"), error := none } := by
  have hr : demo.env.ratio < 4 / 5 := by norm_num [demo.env]
  obtain ⟨v, hv, _, _, hresp⟩ := offload_then_get json.flat demo.writer _ _ demo.sweepEnv 600
    (7 / 10) 5 demo.stamped.Key (by decide) demo_sweep_moves.2 demo.state.cache
    (Or.inr (by decide)) demo.getEnv rfl
  rw [demo_sweep_moves.1] at hv
  rw [← Option.some.inj hv] at hresp
  refine ⟨?_, rfl, by rfl, demo_sweep_moves.2, hresp⟩
  rw [ingest_fast_path json.flat demo.writer (4 / 5) demo.state demo.env demo.stamped
      [(ascii "_ts", GoAny.string (ascii "mine"))] (ascii "\x7b\"_ts\":1700000000\x7d")
      (by decide) rfl hr (by rfl) rfl]

/-! ## Retrievability after ingestion -/

theorem overflowPath_ne_keyPath (w : hdfsx.Writer) (ms : Int) (k : GoString) :
    hdfsx.overflowPath w ms ≠ hdfsx.keyPath w k := by
  intro h
  have h1 : (hdfsx.overflowPath w ms).getLast? = some 108 := by
    unfold hdfsx.overflowPath
    rw [show ascii ".jsonl" = [46, 106, 115, 111, 110, 108] by decide]
    simp [List.getLast?_append]
  have h2 : (hdfsx.keyPath w k).getLast? = some 110 := by
    unfold hdfsx.keyPath
    rw [show ascii ".json" = [46, 106, 115, 111, 110] by decide]
    simp [List.getLast?_append]
  rw [h, h2] at h1
  exact absurd h1 (by decide)

theorem writeJSONL_keyPath {Event : Type} (w : hdfsx.Writer) (J : JSON Event) (fs : hdfsx.Files)
    (events : List Event) (env : hdfsx.JSONLEnv) (k : GoString) (c : Bool) :
    hdfsx.ReadByKey w (hdfsx.WriteJSONL w J fs events env).1 k c = hdfsx.ReadByKey w fs k c := by
  have hne : ¬ hdfsx.keyPath w k = hdfsx.overflowPath w env.nowMilli :=
    fun e => overflowPath_ne_keyPath w env.nowMilli k e.symm
  unfold hdfsx.ReadByKey hdfsx.WriteJSONL
  cases c
  · cases env.createErr with
    | some e => rfl
    | none =>
      cases hdfsx.encodeAll J events with
      | error e => rfl
      | ok content =>
        cases env.putErr with
        | some e => rfl
        | none => simp [hdfsx.Files.put, hne]
  · rfl

open ingestor in
theorem ingest_cold_cases (J : JSON Event) (w : hdfsx.Writer) (soft : ℚ) (st : State)
    (env : IngestEnv) (ev : Event) (hkey : ev.Key ≠ []) (hval : ev.Value ≠ none)
    (h : (ingestHandler J w soft st env (some ev)).1.stored = some "hdfs") :
    (ingestHandler J w soft st env (some ev)).2.1.redis = st.redis ∧
    (ingestHandler J w soft st env (some ev)).2.1.cache =
      (if (st.cache.Enabled && decide (ev.CacheHint = ascii "hot_read")) = true then
        { st.cache with LRU := st.cache.LRU.Add ev.Key (ascii "cached") } else st.cache) ∧
    ∃ events, Call.writeJSONL events ∈ (ingestHandler J w soft st env (some ev)).2.2 ∧
      (ingestHandler J w soft st env (some ev)).2.1.hdfs =
        (hdfsx.WriteJSONL w J st.hdfs events env.jsonl).1 := by
  obtain ⟨value, hv⟩ := Option.ne_none_iff_exists'.mp hval
  by_cases hr : soft ≤ env.ratio
  · rw [ingest_cold_path J w soft st env ev hkey hval hr]
    exact ⟨rfl, rfl, _, by simp, rfl⟩
  · simp only [ingestHandler, hv, hkey, hr, if_false] at h ⊢
    cases hm : J.Marshal (value.set (ascii "_ts") (GoAny.int64 env.now)) with
    | error e =>
      simp only [hm]
      refine ⟨trivial, ?_, _, by simp, rfl⟩
      split <;> split <;> simp_all
    | ok b =>
      cases hs : env.setErr with
      | some e =>
        simp only [hm, hs]
        refine ⟨trivial, ?_, _, by simp, rfl⟩
        split <;> split <;> simp_all
      | none => simp [hm, hs] at h

open ingestor in
theorem ingest_cache_miss (st : State) (ev : Event)
    (hmiss : st.cache.Enabled = false ∨ st.cache.LRU.items.lookup (valKey ev.Key) = none) :
    (if (st.cache.Enabled && decide (ev.CacheHint = ascii "hot_read")) = true then
        ({ st.cache with LRU := st.cache.LRU.Add ev.Key (ascii "cached") } : cachex.Cache)
      else st.cache).Enabled = false ∨
    (if (st.cache.Enabled && decide (ev.CacheHint = ascii "hot_read")) = true then
        ({ st.cache with LRU := st.cache.LRU.Add ev.Key (ascii "cached") } : cachex.Cache)
      else st.cache).LRU.items.lookup (valKey ev.Key) = none := by
  rcases hmiss with h | h
  · left
    split <;> exact h
  · right
    split
    · exact lru_Add_lookup_other _ _ _ _ (valKey_ne ev.Key) h
    · exact h

open ingestor in
/-- C9, amended. For every valid request to `/ingest` made while the local cache holds no
value for the key: when `stored = "redis"` is answered, Redis holds a value for the key and
a retrieval of the key whose Redis call does not fail answers `source = "redis"` with that
value; when `stored = "hdfs"` is answered, the handler called `WriteJSONL`, which writes at
most one bulk-overflow file and no per-key object: Redis and every `ReadByKey` are as
before, so a retrieval of the key is answered exactly as it would have been before the
ingestion, and with 404 when the key was in neither tier. -/
theorem ingest_retrievable (J : JSON Event) (w : hdfsx.Writer) (soft : ℚ) (st : State)
    (env : IngestEnv) (ev : Event) (envG : GetEnv) (hkey : ev.Key ≠ [])
    (hval : ev.Value ≠ none)
    (hmiss : st.cache.Enabled = false ∨ st.cache.LRU.items.lookup (valKey ev.Key) = none) :
    ((ingestHandler J w soft st env (some ev)).1.stored = some "redis" →
      ∃ b, (ingestHandler J w soft st env (some ev)).2.1.redis ev.Key = some b ∧
        (envG.getErr = none →
          (getHandler w (ingestHandler J w soft st env (some ev)).2.1 envG (47 :: ev.Key)).1 =
            { status := 200, ok := true, source := some "redis", value := some b,
              error := none })) ∧
    ((ingestHandler J w soft st env (some ev)).1.stored = some "hdfs" →
      (∃ events, Call.writeJSONL events ∈ (ingestHandler J w soft st env (some ev)).2.2 ∧
        (ingestHandler J w soft st env (some ev)).2.1.hdfs =
          (hdfsx.WriteJSONL w J st.hdfs events env.jsonl).1) ∧
      (ingestHandler J w soft st env (some ev)).2.1.redis = st.redis ∧
      (∀ k c, hdfsx.ReadByKey w (ingestHandler J w soft st env (some ev)).2.1.hdfs k c =
        hdfsx.ReadByKey w st.hdfs k c) ∧
      (getHandler w (ingestHandler J w soft st env (some ev)).2.1 envG (47 :: ev.Key)).1 =
        (getHandler w st envG (47 :: ev.Key)).1 ∧
      (st.redis ev.Key = none → hdfsx.ReadByKey w st.hdfs ev.Key envG.catErr = none →
        (getHandler w (ingestHandler J w soft st env (some ev)).2.1 envG
          (47 :: ev.Key)).1.status = 404)) := by
  obtain ⟨value, hv⟩ := Option.ne_none_iff_exists'.mp hval
  refine ⟨?_, ?_⟩
  · intro h
    obtain ⟨_, hr, hs, b, hm⟩ := ingest_stored_redis J w soft st env ev value hv h
    refine ⟨b, ?_, ?_⟩
    · rw [ingest_fast_path J w soft st env ev value b hkey hv hr hm hs]
      simp [redisx.Keyspace.set]
    · intro hg
      rw [ingest_fast_path J w soft st env ev value b hkey hv hr hm hs]
      apply get_redis_hit _ _ _ _ _ hkey (ingest_cache_miss st ev hmiss)
      simp [redisx.Get, hg, redisx.Keyspace.set]
  · intro h
    obtain ⟨hredis, hcache, events, hcall, hhdfs⟩ := ingest_cold_cases J w soft st env ev hkey hval h
    have hread : ∀ k c, hdfsx.ReadByKey w (ingestHandler J w soft st env (some ev)).2.1.hdfs k c =
        hdfsx.ReadByKey w st.hdfs k c := by
      intro k c
      rw [hhdfs]
      exact writeJSONL_keyPath w J st.hdfs events env.jsonl k c
    have hmiss' : (ingestHandler J w soft st env (some ev)).2.1.cache.Enabled = false ∨
        (ingestHandler J w soft st env (some ev)).2.1.cache.LRU.items.lookup (valKey ev.Key)
          = none := by
      rw [hcache]
      exact ingest_cache_miss st ev hmiss
    have hget : redisx.Get (ingestHandler J w soft st env (some ev)).2.1.redis ev.Key envG.getErr =
        redisx.Get st.redis ev.Key envG.getErr := by rw [hredis]
    refine ⟨⟨events, hcall, hhdfs⟩, hredis, hread, ?_, ?_⟩
    · cases hg : redisx.Get st.redis ev.Key envG.getErr with
      | ok val =>
        rw [get_redis_hit w _ envG ev.Key val hkey hmiss' (hget.trans hg),
          get_redis_hit w st envG ev.Key val hkey hmiss hg]
      | error e =>
        rw [get_redis_miss w _ envG ev.Key e hkey hmiss' (hget.trans hg),
          get_redis_miss w st envG ev.Key e hkey hmiss hg, hread]
    · intro hnone hcold
      have hg : ∃ e, redisx.Get st.redis ev.Key envG.getErr = .error e := by
        unfold redisx.Get
        cases envG.getErr with
        | some e => exact ⟨e, rfl⟩
        | none => exact ⟨"redis: nil", by simp [hnone]⟩
      obtain ⟨e, hg⟩ := hg
      rw [get_redis_miss w _ envG ev.Key e hkey hmiss' (hget.trans hg), hread, hcold]

open ingestor in
/-- Witness of C9 (amended): the sample event on a fresh ingestor under memory pressure. -/
theorem ingest_retrievable_witness :
    demo.event.Key ≠ [] ∧ demo.event.Value ≠ none ∧
    (demo.state.cache.Enabled = false ∨
      demo.state.cache.LRU.items.lookup (valKey demo.event.Key) = none) ∧
    (ingestHandler json.flat demo.writer (4 / 5) demo.state demo.pressed
      (some demo.event)).1.stored = some "hdfs" ∧
    (getHandler demo.writer
      (ingestHandler json.flat demo.writer (4 / 5) demo.state demo.pressed (some demo.event)).2.1
      demo.getEnv (47 :: demo.event.Key)).1 =
    (getHandler demo.writer demo.state demo.getEnv (47 :: demo.event.Key)).1 := by
  have hst : (ingestHandler json.flat demo.writer (4 / 5) demo.state demo.pressed
      (some demo.event)).1.stored = some "hdfs" := by
    rw [ingest_cold_path json.flat demo.writer (4 / 5) demo.state demo.pressed demo.event
      (by decide) (by decide) (by norm_num [demo.pressed, demo.env])]
  exact ⟨by decide, by decide, Or.inr (by decide), hst,
    ((ingest_retrievable json.flat demo.writer (4 / 5) demo.state demo.pressed demo.event
      demo.getEnv (by decide) (by decide) (Or.inr (by decide))).2 hst).2.2.2.1⟩

open ingestor in
/-- Counterexample to C9 as stated. (1) On a fresh ingestor under memory pressure the
sample event is answered `stored = "hdfs"`, `WriteJSONL` succeeds and the record is in the
file `/events_overflow/overflow_1700000000123.jsonl`, yet the retrieval of its key that
follows is answered 404. (2) With a value cached earlier under `VAL:user:1`, the sample
event is answered `stored = "redis"` and the retrieval that follows is answered from the
local cache, not from Redis. -/
theorem unretrievable_after_ingest_counterexample :
    ((ingestHandler json.flat demo.writer (4 / 5) demo.state demo.pressed
        (some demo.event)).1.stored = some "hdfs" ∧
     (ingestHandler json.flat demo.writer (4 / 5) demo.state demo.pressed
        (some demo.event)).2.1.hdfs (ascii "/events_overflow/overflow_1700000000123.jsonl") =
        some (ascii ("\x7b\"key\":\"user:1\",\"value\":\x7b\"a\":1\x7d,\"ttl_sec\":3600," ++
          "\"cache_hint\":\"hot_read\"\x7d\n")) ∧
     (getHandler demo.writer
        (ingestHandler json.flat demo.writer (4 / 5) demo.state demo.pressed (some demo.event)).2.1
        demo.getEnv (47 :: demo.event.Key)).1 =
        { status := 404, ok := false, source := none, value := none,
          error := some "redis: nil" }) ∧
    ((ingestHandler json.flat demo.writer (4 / 5) demo.stale demo.env
        (some demo.event)).1.stored = some "redis" ∧
     (getHandler demo.writer
        (ingestHandler json.flat demo.writer (4 / 5) demo.stale demo.env (some demo.event)).2.1
        demo.getEnv (47 :: demo.event.Key)).1.source = some "local_cache") := by
  rw [ingest_cold_path json.flat demo.writer (4 / 5) demo.state demo.pressed demo.event
      (by decide) (by decide) (by norm_num [demo.pressed, demo.env]),
    ingest_fast_path json.flat demo.writer (4 / 5) demo.stale demo.env demo.event
      [(ascii "a", GoAny.float64 1)] (ascii "\x7b\"_ts\":1700000000,\"a\":1\x7d")
      (by decide) rfl (by norm_num [demo.env]) (by rfl) rfl]
  exact ⟨⟨rfl, by decide, by decide⟩, rfl, by decide⟩

/-! ## The local cache under retrievals -/

theorem lookup_filter_ne (k k' : GoString) (l : List (GoString × GoString)) (h : k' ≠ k) :
    (l.filter (fun e => decide (e.1 ≠ k))).lookup k' = l.lookup k' := by
  induction l with
  | nil => rfl
  | cons a l ih =>
    obtain ⟨x, y⟩ := a
    by_cases hx : x = k
    · subst hx
      have hb : (k' == x) = false := by simpa using h
      simp only [List.filter_cons, ne_eq, not_true_eq_false, decide_False, Bool.false_eq_true,
        if_false, List.lookup_cons, hb]
      exact ih
    · simp only [List.filter_cons, ne_eq, hx, not_false_eq_true, decide_True, if_true,
        List.lookup_cons]
      cases k' == x
      · exact ih
      · rfl

theorem lookup_dropLast (k' : GoString) (l : List (GoString × GoString)) :
    l.dropLast.lookup k' = l.lookup k' ∨
      (l.dropLast.lookup k' = none ∧ ∃ x, l.getLast? = some (k', x)) := by
  induction l with
  | nil => left; rfl
  | cons a l ih =>
    obtain ⟨x, y⟩ := a
    cases l with
    | nil =>
      by_cases hx : k' = x
      · right
        subst hx
        exact ⟨rfl, y, rfl⟩
      · left
        have hb : (k' == x) = false := by simpa using hx
        simp [List.lookup_cons, hb]
    | cons b t =>
      simp only [List.dropLast_cons₂, List.lookup_cons, List.getLast?_cons_cons]
      cases k' == x
      · exact ih
      · left; rfl

theorem lru_Get_entries (c : lru.Cache) (k k' : GoString) :
    (c.Get k).2.size = c.size ∧ (c.Get k).2.items.lookup k' = c.items.lookup k' := by
  unfold lru.Cache.Get
  cases h : c.items.lookup k with
  | none => exact ⟨rfl, rfl⟩
  | some v =>
    refine ⟨rfl, ?_⟩
    by_cases hk : k' = k
    · subst hk
      simp [List.lookup_cons, h]
    · have hb : (k' == k) = false := by simpa using hk
      simp only [List.lookup_cons, hb]
      exact lookup_filter_ne k k' c.items hk

theorem lru_Add_entries (c : lru.Cache) (k v : GoString) :
    (c.Add k v).size = c.size ∧
    (0 < c.size → (c.Add k v).items.lookup k = some v) ∧
    (∀ k', k' ≠ k →
      (c.Add k v).items.lookup k' = c.items.lookup k' ∨
      ((c.Add k v).items.lookup k' = none ∧ c.size ≤ c.items.length ∧
        ∃ x, c.items.getLast? = some (k', x))) := by
  unfold lru.Cache.Add
  cases h : c.items.lookup k with
  | some old =>
    refine ⟨rfl, fun _ => by simp [List.lookup_cons], ?_⟩
    intro k' hk
    left
    have hb : (k' == k) = false := by simpa using hk
    simp only [List.lookup_cons, hb]
    exact lookup_filter_ne k k' c.items hk
  | none =>
    simp only [List.length_cons]
    by_cases hfull : c.size < c.items.length + 1
    · simp only [hfull, if_true]
      cases hi : c.items with
      | nil =>
        refine ⟨trivial, ?_, ?_⟩
        · intro hpos
          rw [hi] at hfull
          simp at hfull
          omega
        · intro k' _
          left
          simp
      | cons b t =>
        refine ⟨trivial, fun _ => by simp [List.lookup_cons], ?_⟩
        intro k' hk
        have hb : (k' == k) = false := by simpa using hk
        simp only [List.dropLast_cons₂, List.lookup_cons, hb]
        rcases lookup_dropLast k' (b :: t) with hl | ⟨hl, x, hx⟩
        · left; exact hl
        · right
          refine ⟨hl, ?_, x, hx⟩
          rw [hi] at hfull
          simp at hfull ⊢
          omega
    · simp only [hfull, if_false]
      refine ⟨trivial, fun _ => by simp [List.lookup_cons], ?_⟩
      intro k' hk
      left
      have hb : (k' == k) = false := by simpa using hk
      simp [List.lookup_cons, hb]

theorem NewLRU_size_pos (hotkeys sizeVar : GoString)
    (h : (cachex.NewLRU hotkeys sizeVar).Enabled = true) :
    0 < (cachex.NewLRU hotkeys sizeVar).LRU.size := by
  have key : ∀ size : Int,
      (match lru.New size with
        | none => ({ Enabled := false, LRU := { size := 0, items := [] } } : cachex.Cache)
        | some c => { Enabled := true, LRU := c }).Enabled = true →
      0 < (match lru.New size with
        | none => ({ Enabled := false, LRU := { size := 0, items := [] } } : cachex.Cache)
        | some c => { Enabled := true, LRU := c }).LRU.size := by
    intro size hs
    unfold lru.New at hs ⊢
    by_cases hp : size ≤ 0
    · simp [hp] at hs
    · simp only [hp, if_false]
      omega
  unfold cachex.NewLRU at h ⊢
  by_cases hh : hotkeys = ascii "0"
  · simp [hh] at h
  · simp only [ne_eq, hh, not_false_eq_true, decide_True, Bool.not_true, Bool.false_eq_true,
      if_false] at h ⊢
    exact key _ h

open ingestor in
/-- C11. A retrieval never writes Redis or HDFS and never changes whether the cache is
enabled or its size. The entries of the local cache change only on a fast-tier hit with an
enabled cache: with a disabled cache, on a cold-tier hit and on a 404 or 400 answer the
cache is untouched and no `Add` is issued; on a local-cache hit no `Add` is issued and every
key maps to the same value as before (only the recency order changes); on a fast-tier hit
with an enabled cache the handler issues exactly `Add("VAL:" + key, value)`, after which
that entry holds the value, and every other key either maps to the same value as before or
was the least recently used entry of a full cache and is now absent. An enabled cache built
by `NewLRU` has a positive size. -/
theorem get_cache_frame (w : hdfsx.Writer) (st : State) (env : GetEnv) (param : GoString) :
    (((getHandler w st env param).2.1.redis = st.redis ∧
     (getHandler w st env param).2.1.hdfs = st.hdfs ∧
     (getHandler w st env param).2.1.cache.Enabled = st.cache.Enabled ∧
     (getHandler w st env param).2.1.cache.LRU.size = st.cache.LRU.size) ∧
    (st.cache.Enabled = false →
      (getHandler w st env param).2.1.cache = st.cache ∧
      (getHandler w st env param).2.2 = []) ∧
    ((getHandler w st env param).1.source = some "local_cache" →
      (getHandler w st env param).2.2 = [] ∧
      ∀ k, (getHandler w st env param).2.1.cache.LRU.items.lookup k =
        st.cache.LRU.items.lookup k) ∧
    ((getHandler w st env param).1.source = some "hdfs" →
      (getHandler w st env param).2.1.cache = st.cache ∧
      (getHandler w st env param).2.2 = []) ∧
    ((getHandler w st env param).1.source = none →
      (getHandler w st env param).2.1.cache = st.cache ∧
      (getHandler w st env param).2.2 = []) ∧
    ((getHandler w st env param).1.source = some "redis" → st.cache.Enabled = true →
      ∃ val, (getHandler w st env param).1.value = some val ∧
        redisx.Get st.redis (requestKey param) env.getErr = .ok val ∧
        (getHandler w st env param).2.2 = [Call.cacheAdd (valKey (requestKey param)) val] ∧
        (0 < st.cache.LRU.size →
          (getHandler w st env param).2.1.cache.LRU.items.lookup (valKey (requestKey param))
            = some val) ∧
        ∀ k, k ≠ valKey (requestKey param) →
          (getHandler w st env param).2.1.cache.LRU.items.lookup k =
            st.cache.LRU.items.lookup k ∨
          ((getHandler w st env param).2.1.cache.LRU.items.lookup k = none ∧
            st.cache.LRU.size ≤ st.cache.LRU.items.length ∧
            ∃ x, st.cache.LRU.items.getLast? = some (k, x)))) ∧
    (∀ hotkeys sizeVar, (cachex.NewLRU hotkeys sizeVar).Enabled = true →
      0 < (cachex.NewLRU hotkeys sizeVar).LRU.size) := by
  refine ⟨?_, NewLRU_size_pos⟩
  by_cases hk : requestKey param = []
  · simp [getHandler, hk]
  · cases hen : st.cache.Enabled with
    | false =>
      simp only [getHandler, hk, hen, if_false, Bool.false_eq_true]
      cases hg : redisx.Get st.redis (requestKey param) env.getErr with
      | error e =>
        cases hc : hdfsx.ReadByKey w st.hdfs (requestKey param) env.catErr <;> simp [hen]
      | ok val => simp [hen]
    | true =>
      simp only [getHandler, hk, hen, if_false, if_true, lru_Get_fst]
      cases hl : st.cache.LRU.items.lookup (valKey (requestKey param)) with
      | some v =>
        have he := lru_Get_entries st.cache.LRU (valKey (requestKey param))
        simp [hen, (he (valKey (requestKey param))).1, fun k => (he k).2]
      | none =>
        cases hg : redisx.Get st.redis (requestKey param) env.getErr with
        | error e =>
          cases hc : hdfsx.ReadByKey w st.hdfs (requestKey param) env.catErr <;> simp [hen]
        | ok val =>
          have ha := lru_Add_entries st.cache.LRU (valKey (requestKey param)) val
          simp only [hen]
          refine ⟨⟨trivial, trivial, trivial, ha.1⟩, by simp, by simp, by simp, by simp, ?_⟩
          intro _ _
          exact ⟨val, rfl, rfl, rfl, ha.2.1, ha.2.2⟩

open ingestor in
/-- Witness of C11: a retrieval of `user:1`, held by Redis, on an ingestor with the default
cache: the answer comes from Redis and the value is then cached under `VAL:user:1`. -/
theorem get_cache_frame_witness :
    (getHandler demo.writer demo.held demo.getEnv (47 :: ascii "user:1")).1.source
      = some "redis" ∧
    demo.held.cache.Enabled = true ∧ 0 < demo.held.cache.LRU.size ∧
    (getHandler demo.writer demo.held demo.getEnv (47 :: ascii "user:1")).2.1.cache.LRU.items.lookup
      (valKey (ascii "user:1")) = some (ascii "v1") := by
  obtain ⟨val, hv, _, _, hl, _⟩ :=
    (get_cache_frame demo.writer demo.held demo.getEnv (47 :: ascii "user:1")).1.2.2.2.2.2
      (by decide) (by decide)
  have hval : (getHandler demo.writer demo.held demo.getEnv (47 :: ascii "user:1")).1.value
      = some (ascii "v1") := by decide
  rw [hval] at hv
  rw [← Option.some.inj hv, requestKey_slash] at hl
  exact ⟨by decide, by decide, by decide, hl (by decide)⟩

/-! ## The file name of a key is reversible -/

theorem decodeURL_encodeURL : ∀ i : Fin 64, base64.decodeURL (base64.encodeURL i.val) = some i.val := by
  decide

theorem decodeURL_encodeURL_nat (i : Nat) (hi : i < 64) :
    base64.decodeURL (base64.encodeURL i) = some i := decodeURL_encodeURL ⟨i, hi⟩

theorem byte_val (a : Fin 256) (n : Nat) (h : n = a.val) : base64.byte n = a := by
  apply Fin.ext
  simp only [base64.byte, h]
  exact Nat.mod_eq_of_lt a.isLt

theorem decode_encode (k : GoString) :
    base64.DecodeString (base64.EncodeToString k) = some k := by
  induction k using base64.EncodeToString.induct with
  | case1 a b c rest ih =>
    have ha := a.isLt; have hb := b.isLt; have hc := c.isLt
    have h3 : base64.encodeURL ((b.val % 16) * 4 + c.val / 64) ≠ base64.StdPadding :=
      encodeURL_ne_pad_nat _ (by omega)
    have h4 : base64.encodeURL (c.val % 64) ≠ base64.StdPadding :=
      encodeURL_ne_pad_nat _ (by omega)
    simp only [base64.EncodeToString, base64.DecodeString,
      decodeURL_encodeURL_nat _ (show a.val / 4 < 64 by omega),
      decodeURL_encodeURL_nat _ (show (a.val % 4) * 16 + b.val / 16 < 64 by omega),
      decodeURL_encodeURL_nat _ (show (b.val % 16) * 4 + c.val / 64 < 64 by omega),
      decodeURL_encodeURL_nat _ (show c.val % 64 < 64 by omega), h3, h4, false_and, if_false, ih]
    rw [byte_val a _ (by omega), byte_val b _ (by omega), byte_val c _ (by omega)]
  | case2 a b =>
    have ha := a.isLt; have hb := b.isLt
    have h3 : base64.encodeURL ((b.val % 16) * 4) ≠ base64.StdPadding :=
      encodeURL_ne_pad_nat _ (by omega)
    simp only [base64.EncodeToString, base64.DecodeString,
      decodeURL_encodeURL_nat _ (show a.val / 4 < 64 by omega),
      decodeURL_encodeURL_nat _ (show (a.val % 4) * 16 + b.val / 16 < 64 by omega),
      decodeURL_encodeURL_nat _ (show (b.val % 16) * 4 < 64 by omega), h3, false_and, if_false,
      and_self, if_true]
    rw [byte_val a _ (by omega), byte_val b _ (by omega)]
  | case3 a =>
    have ha := a.isLt
    simp only [base64.EncodeToString, base64.DecodeString,
      decodeURL_encodeURL_nat _ (show a.val / 4 < 64 by omega),
      decodeURL_encodeURL_nat _ (show (a.val % 4) * 16 < 64 by omega), and_self, if_true]
    rw [byte_val a _ (by omega)]
  | case4 => rfl

theorem repad_cons4 (c1 c2 c3 c4 : Fin 256) (s : GoString) :
    base64.repad (c1 :: c2 :: c3 :: c4 :: s) = c1 :: c2 :: c3 :: c4 :: base64.repad s := by
  simp only [base64.repad, List.length_cons, List.cons_append]
  rw [show s.length + 1 + 1 + 1 + 1 = s.length + 4 by omega, Nat.add_mod_right]

theorem repad_raw (k : GoString) :
    base64.repad (base64.RawEncodeToString k) = base64.EncodeToString k := by
  induction k using base64.EncodeToString.induct with
  | case1 a b c rest ih =>
    simp only [base64.RawEncodeToString, base64.EncodeToString, repad_cons4, ih]
  | case2 a b => simp [base64.RawEncodeToString, base64.EncodeToString, base64.repad]
  | case3 a =>
    simp [base64.RawEncodeToString, base64.EncodeToString, base64.repad, List.replicate]
  | case4 => simp [base64.RawEncodeToString, base64.EncodeToString, base64.repad]

theorem keyToSafeFileName_alphabet (k : GoString) :
    ∀ c ∈ hdfsx.keyToSafeFileName k, ∃ i, i < 64 ∧ c = base64.encodeURL i := by
  rw [keyToSafeFileName_eq_raw]
  induction k using base64.RawEncodeToString.induct with
  | case1 a b c rest ih =>
    have ha := a.isLt; have hb := b.isLt; have hc := c.isLt
    intro x hx
    simp only [base64.RawEncodeToString, List.mem_cons] at hx
    rcases hx with rfl | rfl | rfl | rfl | hx
    · exact ⟨_, by omega, rfl⟩
    · exact ⟨_, by omega, rfl⟩
    · exact ⟨_, by omega, rfl⟩
    · exact ⟨_, by omega, rfl⟩
    · exact ih x hx
  | case2 a b =>
    have ha := a.isLt; have hb := b.isLt
    intro x hx
    simp only [base64.RawEncodeToString, List.mem_cons, List.mem_singleton,
      List.not_mem_nil, or_false] at hx
    rcases hx with rfl | rfl | rfl
    · exact ⟨_, by omega, rfl⟩
    · exact ⟨_, by omega, rfl⟩
    · exact ⟨_, by omega, rfl⟩
  | case3 a =>
    have ha := a.isLt
    intro x hx
    simp only [base64.RawEncodeToString, List.mem_cons, List.mem_singleton,
      List.not_mem_nil, or_false] at hx
    rcases hx with rfl | rfl
    · exact ⟨_, by omega, rfl⟩
    · exact ⟨_, by omega, rfl⟩
  | case4 => intro x hx; simp [base64.RawEncodeToString] at hx

/-- C12. The file name of a key is a reversible, collision-free encoding: two keys with the
same name are equal; padding the name with `=` to a multiple of four characters and decoding
it with `base64.URLEncoding` gives the key back; the name has only characters of the URL
alphabet; `ReadByKey` reads the path `WriteKeyValue` wrote, so it returns the value written
for the key; and a `WriteKeyValue` for one key, whatever its outcome, leaves what
`ReadByKey` returns for every other key unchanged. -/
theorem keyToSafeFileName_reversible :
    (∀ k1 k2, hdfsx.keyToSafeFileName k1 = hdfsx.keyToSafeFileName k2 → k1 = k2) ∧
    (∀ k, base64.DecodeString (base64.repad (hdfsx.keyToSafeFileName k)) = some k) ∧
    (∀ k, ∀ c ∈ hdfsx.keyToSafeFileName k, ∃ i, i < 64 ∧ c = base64.encodeURL i) ∧
    (∀ w fs k v, (hdfsx.WriteKeyValue w fs k v false false).2 = false ∧
      hdfsx.ReadByKey w (hdfsx.WriteKeyValue w fs k v false false).1 k false = some v) ∧
    (∀ w fs k1 k2 v e1 e2 c, k1 ≠ k2 →
      hdfsx.ReadByKey w (hdfsx.WriteKeyValue w fs k2 v e1 e2).1 k1 c =
        hdfsx.ReadByKey w fs k1 c) := by
  refine ⟨keyToSafeFileName_injective, ?_, keyToSafeFileName_alphabet, ?_, ?_⟩
  · intro k
    rw [keyToSafeFileName_eq_raw, repad_raw, decode_encode]
  · intro w fs k v
    simp [hdfsx.WriteKeyValue, hdfsx.ReadByKey, hdfsx.Files.put]
  · intro w fs k1 k2 v e1 e2 c hne
    have hp : ¬ hdfsx.keyPath w k1 = hdfsx.keyPath w k2 :=
      fun e => hne (keyPath_injective w k1 k2 e)
    unfold hdfsx.WriteKeyValue hdfsx.ReadByKey
    cases e1 <;> cases e2 <;> cases c <;> simp [hdfsx.Files.put, hp]

/-! ## The two uses of the local cache -/

open ingestor in
/-- C13, at the failing input. On a fresh ingestor with the default local cache, an event
with the key `VAL:foo` and `cache_hint = hot_read` is ingested: the handler adds the marker
`cached` under `VAL:foo`, which is the key under which the value of `foo` is cached. The
retrieval of `foo` that follows, a key that Redis does not hold, is answered 200 with
`source = local_cache` and the marker `cached` as its value. -/
theorem hot_marker_returned_as_value :
    demo.hotEvent.Key = valKey (ascii "foo") ∧
    (ingestHandler json.flat demo.writer (4 / 5) demo.state demo.env (some demo.hotEvent)).1.stored
      = some "redis" ∧
    Call.cacheAdd (ascii "VAL:foo") (ascii "cached") ∈
      (ingestHandler json.flat demo.writer (4 / 5) demo.state demo.env (some demo.hotEvent)).2.2 ∧
    (ingestHandler json.flat demo.writer (4 / 5) demo.state demo.env
      (some demo.hotEvent)).2.1.redis (ascii "foo") = none ∧
    (getHandler demo.writer
      (ingestHandler json.flat demo.writer (4 / 5) demo.state demo.env (some demo.hotEvent)).2.1
      demo.getEnv (47 :: ascii "foo")).1 =
      { status := 200, ok := true, source := some "local_cache", value := some (ascii "cached"),
        error := none } := by
  rw [ingest_fast_path json.flat demo.writer (4 / 5) demo.state demo.env demo.hotEvent
    [] (ascii "\x7b\"_ts\":1700000000\x7d") (by decide) rfl (by norm_num [demo.env]) (by rfl) rfl]
  exact ⟨by decide, rfl, by decide, by decide, by decide⟩

/-! ## The pressure ratio -/

/-- C14, at the failing input. One shard replies to `INFO memory` with
`used_memory:2097152` and `maxmemory:1048576`: the totals are 2097152 and 1048576 and
`ClusterMemRatio` returns 2, which is above 1. -/
theorem ratio_above_one :
    redisx.memTotals [some demo.overInfo] = (2097152, 1048576) ∧
    redisx.ClusterMemRatio false [some demo.overInfo] = (2, false) ∧
    ¬ (redisx.ClusterMemRatio false [some demo.overInfo]).1 ≤ 1 := by
  have h : redisx.memTotals [some demo.overInfo] = (2097152, 1048576) := by rfl
  have hr : redisx.ClusterMemRatio false [some demo.overInfo] = (2, false) := by
    simp only [redisx.ClusterMemRatio, h]
    norm_num
  refine ⟨h, hr, ?_⟩
  rw [hr]
  norm_num

theorem ClusterMemRatio_bounds (stateErr : Bool) (infos : List (Option GoString))
    (h0 : 0 ≤ (redisx.memTotals infos).1)
    (h1 : (redisx.memTotals infos).1 ≤ (redisx.memTotals infos).2) :
    0 ≤ (redisx.ClusterMemRatio stateErr infos).1 ∧
    (redisx.ClusterMemRatio stateErr infos).1 ≤ 1 := by
  unfold redisx.ClusterMemRatio
  cases stateErr with
  | true => simp
  | false =>
    simp only [Bool.false_eq_true, if_false]
    by_cases hm : (redisx.memTotals infos).2 ≤ 0
    · simp [hm]
    · simp only [hm, if_false]
      have hpos : (0 : ℚ) < ((redisx.memTotals infos).2 : ℚ) := by
        exact_mod_cast not_le.mp hm
      have hu : (0 : ℚ) ≤ ((redisx.memTotals infos).1 : ℚ) := by exact_mod_cast h0
      have hle : ((redisx.memTotals infos).1 : ℚ) ≤ ((redisx.memTotals infos).2 : ℚ) := by
        exact_mod_cast h1
      exact ⟨div_nonneg hu hpos.le, (div_le_one hpos).mpr hle⟩
